import Mathlib

/-!
Shallow embedding of the loop-point, validation, thinning and parsing logic of
`elmconv.py` (Tonverk elmulti converter), together with theorems settling the
frozen claims about its specification.

Modelling conventions:
* Python integers become `ℤ` (or `ℕ` where the source value is a count).
* The resample ratio (a Python float computed as `new_rate / orig_rate`) is
  modelled as an exact rational `ℚ`; Python `round` on floats is half-to-even,
  modelled by `pyRound`.
* Fallible code returns `Option`/`Except`; emitted warning strings are carried
  as `Option String` (the message text mirrors the source f-strings except that
  float formatting such as `{x:.1f}` is rendered without decimal formatting,
  which no claim depends on).
* List indexing `samples[i]` is modelled by `sampleAt`, total via a default of
  `0`; every use site is bounds-checked first, exactly as in the source.
-/

namespace Elmconv

/-- Python `round` on a real value, modelled on `ℚ`: round half to even
(banker's rounding), as CPython does for floats. -/
def pyRound (q : ℚ) : ℤ :=
  let f := ⌊q⌋
  let r := q - f
  if r < (1 : ℚ)/2 then f
  else if (1 : ℚ)/2 < r then f + 1
  else if f % 2 = 0 then f else f + 1

/-- Embedding of `validate_sample_position(value, sample_count, can_omit)`
(`elmconv.py` lines 655-682).  Returns the validated value and an optional
warning message. -/
def validate_sample_position (value : ℤ) (sample_count : Option ℤ)
    (can_omit : Bool) : ℤ × Option String :=
  match sample_count with
  | none => (value, none)
  | some count =>
    if value ≤ 0 ∨ count ≤ 0 then (value, none)
    else
      let max_valid := count - 1
      if count ≤ value then
        if can_omit then (0, some s!"out of bounds ({value} >= {count}), omitting")
        else (max_valid, some s!"clamped {value} -> {max_valid}")
      else (value, none)

/-- List access `samples[i]` for an index already checked to be in range;
out-of-range access (never exercised by the guarded source paths we embed)
defaults to `0`. -/
def sampleAt (samples : List ℤ) (i : ℤ) : ℤ := samples.getD i.toNat 0

/-- Embedding of `calculate_single_cycle_loop(orig_loop_start, orig_loop_end,
resample_ratio, samples)` (`elmconv.py` lines 702-784).  The `samples`
argument is optional; a supplied empty list behaves like `None` (Python
truthiness of `if samples:`).  Warnings are joined as in the source. -/
def calculate_single_cycle_loop (orig_loop_start orig_loop_end : ℤ)
    (resample_ratio : ℚ) (samples : Option (List ℤ)) : ℤ × ℤ × Option String :=
  let orig_loop_length := orig_loop_end - orig_loop_start + 1
  let new_loop_length := max 1 (pyRound ((orig_loop_length : ℚ) * resample_ratio))
  let loop_start := pyRound ((orig_loop_start : ℚ) * resample_ratio)
  let loop_end := loop_start + new_loop_length - 1
  match samples with
  | none => (loop_start, loop_end, none)
  | some ss =>
    if ss.isEmpty then (loop_start, loop_end, none)
    else
      let total_samples : ℤ := ss.length
      let w1 : List String :=
        if loop_start < 0 then [s!"loop_start clamped: {loop_start} -> 0"] else []
      let start1 : ℤ := if loop_start < 0 then 0 else loop_start
      let end1 : ℤ := if loop_start < 0 then start1 + new_loop_length - 1 else loop_end
      let w2 : List String :=
        if total_samples ≤ start1 then
          w1 ++ [s!"loop_start clamped: {start1} -> {total_samples - 1}"] else w1
      let start2 : ℤ := if total_samples ≤ start1 then total_samples - 1 else start1
      let w3 : List String :=
        if end1 < start2 then w2 ++ [s!"loop_end clamped: {end1} -> {start2}"] else w2
      let end2 : ℤ := if end1 < start2 then start2 else end1
      let w4 : List String :=
        if total_samples ≤ end2 then
          w3 ++ [s!"loop_end clamped: {end2} -> {total_samples - 1}"] else w3
      let end3 : ℤ := if total_samples ≤ end2 then total_samples - 1 else end2
      let actual_loop_length := end3 - start2 + 1
      let w5 : List String :=
        if end3 + 1 < total_samples then
          let val_start := sampleAt ss start2
          let val_end_next := sampleAt ss (end3 + 1)
          let diff_phase := |val_end_next - val_start|
          if (5 : ℚ) < ((diff_phase : ℚ) / 8388607) * 100 then
            w4 ++ [s!"phase coherence: diff exceeds 5 percent (loop_len={actual_loop_length})"]
          else w4
        else w4
      let warning : Option String :=
        if w5 = [] then none
        else some ("Single-cycle loop warning: " ++ String.intercalate "; " w5)
      (start2, end3, warning)

/-- Embedding of the loop-end emission fragment of `write_elmulti`
(`elmconv.py` lines 2411-2421): validate with `can_omit=False`, replace the
value only when a warning is produced, and always write the field.  Returns
the written value and the warning. -/
def write_elmulti_loop_end (loop_end : ℤ) (actual_sample_count : Option ℤ) :
    ℤ × Option String :=
  let r := validate_sample_position loop_end actual_sample_count false
  match r.2 with
  | some w => (r.1, some w)
  | none => (loop_end, none)

/-- Embedding of the trim-end emission fragment of `write_elmulti`
(`elmconv.py` lines 2284-2296): validate the scaled trim end with
`can_omit=True` and write the field only when the validated value is
positive.  Returns the written value (`none` = field omitted) and the
warning. -/
def write_elmulti_trim_end (scaled_trim_end : ℤ) (actual_sample_count : Option ℤ) :
    Option ℤ × Option String :=
  let r := validate_sample_position scaled_trim_end actual_sample_count true
  (if 0 < r.1 then some r.1 else none, r.2)

lemma pyRound_intCast (n : ℤ) : pyRound (n : ℚ) = n := by
  unfold pyRound
  simp [Int.floor_intCast]

/-- C1: for every original loop with `orig_loop_end ≥ orig_loop_start ≥ 0` and
every positive ratio `R`, `calculate_single_cycle_loop` without a sample array
returns `loop_start = round(orig_loop_start * R)` and
`loop_end = loop_start + max(1, round((orig_loop_end - orig_loop_start + 1) * R)) - 1`,
scaling the inclusive loop length as a whole; in particular for `R = 1` the
returned loop equals the input loop exactly. -/
theorem single_cycle_loop_scales_length (s e : ℤ) (R : ℚ)
    (hs : 0 ≤ s) (hse : s ≤ e) (hR : 0 < R) :
    calculate_single_cycle_loop s e R none =
      (pyRound ((s : ℚ) * R),
       pyRound ((s : ℚ) * R) + max 1 (pyRound (((e - s + 1 : ℤ) : ℚ) * R)) - 1,
       none)
    ∧ (R = 1 → calculate_single_cycle_loop s e R none = (s, e, none)) := by
  constructor
  · rfl
  · intro h
    subst h
    unfold calculate_single_cycle_loop
    simp only [mul_one, pyRound_intCast]
    have h1 : max 1 (e - s + 1) = e - s + 1 := max_eq_right (by omega)
    rw [h1]
    have h2 : s + (e - s + 1) - 1 = e := by ring
    rw [h2]

/-- Witness for C1 at a concrete input. -/
theorem single_cycle_loop_scales_length_witness :
    (0 : ℤ) ≤ 3 ∧ (3 : ℤ) ≤ 10 ∧ (0 : ℚ) < 1 ∧
    calculate_single_cycle_loop 3 10 1 none = (3, 10, none) :=
  ⟨by norm_num, by norm_num, by norm_num,
    (single_cycle_loop_scales_length 3 10 1 (by norm_num) (by norm_num)
      (by norm_num)).2 rfl⟩

/-- C10: for every input value `≤ 0`, and also whenever the sample count is
`none` or `≤ 0`, `validate_sample_position` returns the value unchanged with
no warning, for both `can_omit` settings. -/
theorem validate_sample_position_passthrough (v : ℤ) (c : Option ℤ) (o : Bool)
    (h : v ≤ 0 ∨ c = none ∨ ∃ n, c = some n ∧ n ≤ 0) :
    validate_sample_position v c o = (v, none) := by
  rcases c with _ | n
  · rfl
  · have hvn : v ≤ 0 ∨ n ≤ 0 := by
      rcases h with h | h | ⟨m, hm, hle⟩
      · exact Or.inl h
      · cases h
      · cases hm
        exact Or.inr hle
    simp only [validate_sample_position, if_pos hvn]

/-- Witness for C10 at a concrete input. -/
theorem validate_sample_position_passthrough_witness :
    ((-3 : ℤ) ≤ 0 ∨ (some (10 : ℤ) : Option ℤ) = none ∨
      ∃ n, (some (10 : ℤ) : Option ℤ) = some n ∧ n ≤ 0) ∧
    validate_sample_position (-3) (some 10) true = (-3, none) :=
  ⟨Or.inl (by norm_num),
    validate_sample_position_passthrough (-3) (some 10) true (Or.inl (by norm_num))⟩

/-- C3: against a positive decoded sample count, a computed positive
`loop_end ≥ count` is clamped to `count - 1` with a warning and the field is
still written, while a computed positive `trim_end ≥ count` is omitted
entirely (`can_omit` validation returns 0 and the line is not written), with
a warning. -/
theorem final_validation_clamp_vs_omit (loop_end trim_end count : ℤ)
    (hc : 0 < count) (hl : count ≤ loop_end) (ht : count ≤ trim_end) :
    write_elmulti_loop_end loop_end (some count) =
      (count - 1, some s!"clamped {loop_end} -> {count - 1}")
    ∧ write_elmulti_trim_end trim_end (some count) =
      (none, some s!"out of bounds ({trim_end} >= {count}), omitting") := by
  have h1 : ¬(loop_end ≤ 0 ∨ count ≤ 0) := by omega
  have h2 : ¬(trim_end ≤ 0 ∨ count ≤ 0) := by omega
  constructor
  · simp only [write_elmulti_loop_end, validate_sample_position, if_neg h1,
      if_pos hl, Bool.false_eq_true, if_false]
  · simp only [write_elmulti_trim_end, validate_sample_position, if_neg h2,
      if_pos ht, if_true]
    norm_num

/-- Witness for C3 at a concrete input. -/
theorem final_validation_clamp_vs_omit_witness :
    (0 : ℤ) < 10 ∧ (10 : ℤ) ≤ 12 ∧ (10 : ℤ) ≤ 15 ∧
    (write_elmulti_loop_end 12 (some 10) = (9, some "clamped 12 -> 9")
     ∧ write_elmulti_trim_end 15 (some 10) =
        (none, some "out of bounds (15 >= 10), omitting")) :=
  ⟨by norm_num, by norm_num, by norm_num,
    final_validation_clamp_vs_omit 12 15 10 (by norm_num) (by norm_num)
      (by norm_num)⟩

/-- Embedding of the sample-period computation of `embed_smpl_chunk`
(`elmconv.py` line 589): `sample_period = int(1e9 / sample_rate)`, a
truncation of the quotient.  For every integer rate representable in a WAV
header the IEEE-754 quotient `1e9 / rate` truncates to the same integer as
the exact rational quotient (both operands are exact doubles and the quotient
is never within double-rounding distance of an integer boundary unless it is
exact), so the Python `int(...)` is modelled as natural floor division. -/
def smpl_sample_period (sample_rate : ℕ) : ℕ := 10 ^ 9 / sample_rate

/-- Embedding of the nine fixed 32-bit fields packed into the `smpl` chunk by
`embed_smpl_chunk` (`elmconv.py` lines 593-604), at field granularity:
manufacturer, product, sample period, MIDI unity note, pitch fraction, SMPTE
format, SMPTE offset, number of sample loops, sampler data. -/
def smpl_chunk_fields (sample_rate midi_unity_note : ℕ) (has_loop : Bool) :
    List ℕ :=
  [0, 0, smpl_sample_period sample_rate, midi_unity_note, 0, 0, 0,
   if has_loop then 1 else 0, 0]

/-- Exception values raised by `elmconv.py`, one constructor per exception
class the source actually defines or uses for the modelled paths:
`RuntimeError` is Python's builtin (generic) exception; `ConversionError`,
`ValidationError` and `FFmpegNotFoundError` are the classes defined at
`elmconv.py` lines 30-44.  The source defines no `UnsupportedFormatError`. -/
inductive PyExc where
  | runtimeError (msg : String)
  | conversionError (msg : String)
  | validationError (msg : String)
  | ffmpegNotFoundError (msg : String)
deriving DecidableEq, Repr

/-- Name of the Python class of an exception value. -/
def PyExc.className : PyExc → String
  | .runtimeError _ => "RuntimeError"
  | .conversionError _ => "ConversionError"
  | .validationError _ => "ValidationError"
  | .ffmpegNotFoundError _ => "FFmpegNotFoundError"

/-- Whether an exception value is an instance of a generic Python builtin
class rather than one of the converter's dedicated classes. -/
def PyExc.isBuiltinGeneric : PyExc → Bool
  | .runtimeError _ => true
  | _ => false

/-- Little-endian 32-bit read `struct.unpack_from("<I", data, off)`. -/
def u32le (data : List ℕ) (off : ℕ) : ℕ :=
  data.getD off 0 + 256 * data.getD (off + 1) 0 + 65536 * data.getD (off + 2) 0
    + 16777216 * data.getD (off + 3) 0

/-- Big-endian 32-bit read `struct.unpack_from(">I", data, off)`. -/
def u32be (data : List ℕ) (off : ℕ) : ℕ :=
  16777216 * data.getD off 0 + 65536 * data.getD (off + 1) 0
    + 256 * data.getD (off + 2) 0 + data.getD (off + 3) 0

/-- Value of `EXSHeader.sig` (`elmconv.py` line 1111). -/
def exsHeaderSig : ℕ := 0x00000101

/-- Value of `EXSHeader.sig_new` (`elmconv.py` line 1112). -/
def exsHeaderSigNew : ℕ := 0x40000101

/-- Byte values of `b"SOBT"`. -/
def bytesSOBT : List ℕ := [83, 79, 66, 84]

/-- Byte values of `b"TBOS"`. -/
def bytesTBOS : List ℕ := [84, 66, 79, 83]

/-- Embedding of the signature validation in `EXSInstrument.__init__`
(`elmconv.py` lines 1365-1375), applied to the first bytes of the file:
returns the exception raised by the check, or `none` when the header check
passes.  The file-size guard that precedes the read is outside the byte
buffer and is not part of this check. -/
def exsHeaderCheck (data : List ℕ) : Option PyExc :=
  let sig := u32le data 0
  if u32be data 0 = exsHeaderSig ∧ (data.drop 16).take 4 = bytesSOBT then
    some (.runtimeError "Big endian EXS files are not supported")
  else if ¬(sig = exsHeaderSig ∨ sig = exsHeaderSigNew)
      ∧ (data.drop 16).take 4 = bytesTBOS then
    some (.runtimeError "Not a valid EXS file")
  else none

/-- C9 counterexample: at sample rate 44100 the embedded sample period is the
truncated value 22675, while `round(1e9 / 44100)` as the claim states it is
22676. -/
theorem smpl_sample_period_not_round_counterexample :
    smpl_chunk_fields 44100 60 true = [0, 0, 22675, 60, 0, 0, 0, 1, 0]
    ∧ pyRound ((10 ^ 9 : ℚ) / 44100) = 22676
    ∧ (22675 : ℕ) ≠ 22676 := by
  refine ⟨by decide, ?_, by decide⟩
  norm_num [pyRound]

/-- C9 amended: for every positive sample rate, the metadata patcher embeds a
sample period equal to the truncation (floor) of `1e9 / sample_rate`
nanoseconds, i.e. the unique integer `p` with `p ≤ 1e9 / rate < p + 1`, as
the third field of the sampler metadata block. -/
theorem smpl_sample_period_floor (rate note : ℕ) (hl : Bool) (hr : 0 < rate) :
    (smpl_chunk_fields rate note hl).get? 2 = some (smpl_sample_period rate)
    ∧ ((smpl_sample_period rate : ℚ) ≤ (10 ^ 9 : ℚ) / (rate : ℚ)
       ∧ (10 ^ 9 : ℚ) / (rate : ℚ) < (smpl_sample_period rate : ℚ) + 1) := by
  have hbQ : (0 : ℚ) < (rate : ℚ) := by exact_mod_cast hr
  refine ⟨rfl, ?_, ?_⟩
  · rw [le_div_iff₀ hbQ]
    have : smpl_sample_period rate * rate ≤ 10 ^ 9 := Nat.div_mul_le_self _ _
    exact_mod_cast this
  · rw [div_lt_iff₀ hbQ]
    have : 10 ^ 9 < (smpl_sample_period rate + 1) * rate :=
      (Nat.div_lt_iff_lt_mul hr).mp (Nat.lt_succ_self _)
    calc (10 ^ 9 : ℚ) < ((smpl_sample_period rate + 1) * rate : ℕ) := by
            exact_mod_cast this
      _ = ((smpl_sample_period rate : ℚ) + 1) * (rate : ℚ) := by push_cast; ring

/-- Witness for the amended C9 at sample rate 48000. -/
theorem smpl_sample_period_floor_witness :
    0 < 48000 ∧
    ((smpl_chunk_fields 48000 60 true).get? 2 = some (smpl_sample_period 48000)
     ∧ ((smpl_sample_period 48000 : ℚ) ≤ (10 ^ 9 : ℚ) / ((48000 : ℕ) : ℚ)
        ∧ (10 ^ 9 : ℚ) / ((48000 : ℕ) : ℚ) < (smpl_sample_period 48000 : ℚ) + 1)) :=
  ⟨by norm_num, smpl_sample_period_floor 48000 60 true (by norm_num)⟩

/-- C4 counterexample: a buffer whose first 4 bytes are the big-endian form
of the magic signature (with the secondary marker `SOBT` at offset 16) makes
the binary reader fail with Python's builtin generic `RuntimeError` — the
very same class used for the ordinary invalid-file failure — and not with a
dedicated `UnsupportedFormatError`, which the source never defines. -/
theorem exs_big_endian_generic_error_counterexample :
    exsHeaderCheck ([0, 0, 1, 1] ++ List.replicate 12 0 ++ bytesSOBT)
      = some (PyExc.runtimeError "Big endian EXS files are not supported")
    ∧ exsHeaderCheck ([9, 9, 9, 9] ++ List.replicate 12 0 ++ bytesTBOS)
      = some (PyExc.runtimeError "Not a valid EXS file")
    ∧ (PyExc.runtimeError "Big endian EXS files are not supported").isBuiltinGeneric
        = true
    ∧ (PyExc.runtimeError "Big endian EXS files are not supported").className
        = (PyExc.runtimeError "Not a valid EXS file").className := by
  refine ⟨by decide, by decide, by decide, by decide⟩

/-- C4 amended: a binary instrument buffer whose first 4 bytes match the
big-endian interpretation of the magic signature and which carries the
secondary marker `SOBT` at offset 16 fails with the generic builtin
`RuntimeError` carrying the message "Big endian EXS files are not
supported"; the source defines no dedicated `UnsupportedFormatError`. -/
theorem exs_big_endian_raises_runtime_error (data : List ℕ)
    (hbe : u32be data 0 = exsHeaderSig)
    (hmark : (data.drop 16).take 4 = bytesSOBT) :
    exsHeaderCheck data
      = some (PyExc.runtimeError "Big endian EXS files are not supported")
    ∧ (exsHeaderCheck data).all PyExc.isBuiltinGeneric = true := by
  have : exsHeaderCheck data
      = some (PyExc.runtimeError "Big endian EXS files are not supported") := by
    unfold exsHeaderCheck
    rw [if_pos ⟨hbe, hmark⟩]
  exact ⟨this, by rw [this]; decide⟩

/-- Witness for the amended C4 at a concrete buffer. -/
theorem exs_big_endian_raises_runtime_error_witness :
    u32be ([0, 0, 1, 1] ++ List.replicate 12 0 ++ bytesSOBT) 0 = exsHeaderSig
    ∧ (exsHeaderCheck ([0, 0, 1, 1] ++ List.replicate 12 0 ++ bytesSOBT)
        = some (PyExc.runtimeError "Big endian EXS files are not supported")
       ∧ (exsHeaderCheck ([0, 0, 1, 1] ++ List.replicate 12 0 ++ bytesSOBT)).all
          PyExc.isBuiltinGeneric = true) :=
  ⟨by decide,
    exs_big_endian_raises_runtime_error _ (by decide) (by decide)⟩

/-- Generic left scan keeping the first element of minimal score: starting
best `b`, each element of the list replaces the current best only when its
score is strictly smaller.  This is the shared shape of Python's
`max(..., key=...)` (with negated score) and of the strict-improvement search
loop of `optimize_loop_points`. -/
def keepFirstMin {α : Type} (f : α → ℤ) : List α → α → α
  | [], b => b
  | c :: cs, b => keepFirstMin f cs (if f c < f b then c else b)

lemma keepFirstMin_le_init {α : Type} (f : α → ℤ) :
    ∀ (l : List α) (b : α), f (keepFirstMin f l b) ≤ f b
  | [], _ => le_refl _
  | c :: cs, b => by
    unfold keepFirstMin
    by_cases h : f c < f b
    · rw [if_pos h]
      exact le_trans (keepFirstMin_le_init f cs c) (le_of_lt h)
    · rw [if_neg h]
      exact keepFirstMin_le_init f cs b

lemma keepFirstMin_le_mem {α : Type} (f : α → ℤ) :
    ∀ (l : List α) (b : α), ∀ x ∈ l, f (keepFirstMin f l b) ≤ f x
  | [], _ => by simp
  | c :: cs, b => by
    intro x hx
    unfold keepFirstMin
    rcases List.mem_cons.mp hx with rfl | hx
    · by_cases h : f x < f b
      · rw [if_pos h]
        exact keepFirstMin_le_init f cs x
      · rw [if_neg h]
        exact le_trans (keepFirstMin_le_init f cs b) (not_lt.mp h)
    · by_cases h : f c < f b
      · rw [if_pos h]
        exact keepFirstMin_le_mem f cs c x hx
      · rw [if_neg h]
        exact keepFirstMin_le_mem f cs b x hx

lemma keepFirstMin_mem_or_init {α : Type} (f : α → ℤ) :
    ∀ (l : List α) (b : α), keepFirstMin f l b = b ∨ keepFirstMin f l b ∈ l
  | [], _ => Or.inl rfl
  | c :: cs, b => by
    unfold keepFirstMin
    by_cases h : f c < f b
    · rw [if_pos h]
      rcases keepFirstMin_mem_or_init f cs c with h' | h'
      · refine Or.inr ?_
        rw [h']
        exact List.mem_cons_self c cs
      · exact Or.inr (List.mem_cons_of_mem c h')
    · rw [if_neg h]
      rcases keepFirstMin_mem_or_init f cs b with h' | h'
      · exact Or.inl h'
      · exact Or.inr (List.mem_cons_of_mem c h')

lemma keepFirstMin_find? {α : Type} (f : α → ℤ) :
    ∀ (l : List α) (b : α),
      (b :: l).find? (fun x => f x == f (keepFirstMin f l b))
        = some (keepFirstMin f l b)
  | [], b => by simp [keepFirstMin]
  | c :: cs, b => by
    unfold keepFirstMin
    by_cases h : f c < f b
    · rw [if_pos h]
      have hr := keepFirstMin_le_init f cs c
      have hbf : (f b == f (keepFirstMin f cs c)) = false := by
        simp only [beq_eq_false_iff_ne, ne_eq]
        omega
      simp only [List.find?_cons, hbf]
      exact keepFirstMin_find? f cs c
    · rw [if_neg h]
      have hr := keepFirstMin_le_init f cs b
      by_cases hb : f b = f (keepFirstMin f cs b)
      · have hbt : (f b == f (keepFirstMin f cs b)) = true := by
          simp only [beq_iff_eq]
          exact hb
        have ih := keepFirstMin_find? f cs b
        simp only [List.find?_cons, hbt] at ih ⊢
        exact ih
      · have hbf : (f b == f (keepFirstMin f cs b)) = false := by
          simp only [beq_eq_false_iff_ne, ne_eq]
          exact hb
        have hcf : (f c == f (keepFirstMin f cs b)) = false := by
          simp only [beq_eq_false_iff_ne, ne_eq]
          intro hc
          have hbc := not_lt.mp h
          apply hb
          omega
        have ih := keepFirstMin_find? f cs b
        simp only [List.find?_cons, hbf] at ih
        simp only [List.find?_cons, hbf, hcf]
        exact ih

/-- One zone record, restricted to the fields the thinning and
velocity-layering logic reads or that witness that untouched fields survive
filtering (`zone_data` dict entries of `elmconv.py`). -/
structure Zone where
  pitch : ℤ
  minvel : ℤ
  rr_position : ℤ
  loop : Bool
  loop_start : ℤ
  loop_end : ℤ
deriving DecidableEq, Repr

/-- Python `sorted(set(l))`: the distinct values of `l` in ascending order. -/
def sortedDistinct (l : List ℤ) : List ℤ :=
  List.insertionSort (· ≤ ·) l.dedup

/-- Gaps between adjacent entries of a list, `l[i+1] - l[i]`. -/
def adjacentGaps (l : List ℤ) : List ℤ :=
  List.zipWith (fun a b => b - a) l l.tail

/-- Iteration order of a CPython `set` of small non-negative integers:
distinct values below the hash-table slot count (8 for these small sets)
hash to themselves and occupy slots in value order, so iterating
`set(intervals)` yields the distinct values in ascending order.  For values
of 8 or more the slot is `value & mask` and the order wraps (e.g.
`set({5, 12})` iterates as `[12, 5]`), so this model of the source's
`set(intervals)` is exact only below 8; every theorem and counterexample
whose conclusion depends on the tie-break carries an explicit
all-gaps-below-8 hypothesis or uses such gaps. -/
def pySetAsc (l : List ℤ) : List ℤ :=
  List.insertionSort (· ≤ ·) l.dedup

/-- Python's `max(candidates, key=lambda v: l.count(v))` as used at
`elmconv.py` line 1904: scans `candidates` left to right keeping the element
with the greatest count in `l`, the first such element on ties (Python's
`max` replaces the current best only on a strictly greater key).  The empty
case never occurs at the call site (guarded by `pitch_count >= 2`). -/
def pyMaxByCount : List ℤ → List ℤ → ℤ
  | [], _ => 0
  | c :: cs, l => keepFirstMin (fun g => -(l.count g : ℤ)) cs c

/-- Result fields of `analyze_sample_map` (`elmconv.py` lines 1874-1930)
that the thinning engine and the claims read. -/
structure SampleMapAnalysis where
  unique_pitches : List ℤ
  pitch_count : ℕ
  interval : ℤ
deriving DecidableEq, Repr

/-- Embedding of `analyze_sample_map(zone_data)` (`elmconv.py` lines
1874-1930), restricted to the fields `unique_pitches`, `pitch_count` and
`interval`; `interval = max(set(intervals), key=intervals.count)` when at
least two distinct pitches exist, else 0.  The `interval` field inherits
`pySetAsc`'s ascending set-iteration model, which matches CPython only
when all gap values are below 8; with tied counts among larger gaps the
source may return a different tied value than this embedding, so tie-break
conclusions about `interval` are stated only under an all-gaps-below-8
hypothesis. -/
def analyze_sample_map (zone_data : List Zone) : SampleMapAnalysis :=
  if zone_data.isEmpty then ⟨[], 0, 0⟩
  else
    let unique_pitches := sortedDistinct (zone_data.map (·.pitch))
    let pitch_count := unique_pitches.length
    let interval :=
      if 2 ≤ pitch_count then
        pyMaxByCount (pySetAsc (adjacentGaps unique_pitches))
          (adjacentGaps unique_pitches)
      else 0
    ⟨unique_pitches, pitch_count, interval⟩

/-- Circular pitch-class distance used by the thinning anchor fallback
(`elmconv.py` line 1992): `min((pitch % 12 - anchor) % 12, (anchor - pitch % 12) % 12)`.
Lean's `%` on `ℤ` is `Int.emod`, which agrees with Python `%` for the
positive modulus 12. -/
def circularPitchClassDist (pitch anchor : ℤ) : ℤ :=
  min ((pitch % 12 - anchor) % 12) ((anchor - pitch % 12) % 12)

/-- The anchor-fallback scan of `apply_thinning` (`elmconv.py` lines
1989-1995): walk the enumerated pitches keeping `(min_dist, start_idx)`,
updating only on a strictly smaller circular distance. -/
def thinClosestScan (anchor : ℤ) : List (ℕ × ℤ) → ℤ × ℕ → ℤ × ℕ
  | [], acc => acc
  | (i, p) :: rest, acc =>
    thinClosestScan anchor rest
      (if circularPitchClassDist p anchor < acc.1
       then (circularPitchClassDist p anchor, i) else acc)

/-- Start-index choice of `apply_thinning` (`elmconv.py` lines 1982-1995):
the first pitch whose pitch class equals the anchor, else the fallback scan
starting from `(min_dist, start_idx) = (12, 0)`. -/
def thinStartIdx (unique_pitches : List ℤ) (anchor : ℤ) : ℕ :=
  match unique_pitches.findIdx? (fun p => p % 12 == anchor) with
  | some i => i
  | none => (thinClosestScan anchor unique_pitches.enum (12, 0)).2

/-- Indices visited by `range(start_idx, len, thin_factor)` (forward
selection, `elmconv.py` line 2001). -/
def thinForwardIdxs (start_idx N len : ℕ) : List ℕ :=
  (List.range ((len - start_idx + N - 1) / N)).map (fun k => start_idx + k * N)

/-- Indices visited by `range(start_idx - thin_factor, -1, -thin_factor)`
(backward selection, `elmconv.py` line 2005). -/
def thinBackwardIdxs (start_idx N : ℕ) : List ℕ :=
  (List.range (start_idx / N)).map (fun k => start_idx - (k + 1) * N)

/-- Pitches selected by the bidirectional every-Nth walk of
`apply_thinning` (`elmconv.py` lines 1998-2006); the source accumulates them
in a set, modelled as a list used only through membership. -/
def thinSelectedPitches (unique_pitches : List ℤ) (start_idx N : ℕ) : List ℤ :=
  (thinForwardIdxs start_idx N unique_pitches.length
    ++ thinBackwardIdxs start_idx N).map (fun i => unique_pitches.getD i 0)

/-- The `stats` dictionary returned by `apply_thinning` (`elmconv.py` lines
2011-2022). -/
structure ThinStats where
  original_pitches : ℕ
  result_pitches : ℕ
  removed_pitches : ℕ
  original_interval : ℤ
  result_interval : ℤ
  original_zones : ℕ
  result_zones : ℕ
  anchor : ℤ
  selected_pitches : List ℤ
deriving DecidableEq, Repr

/-- The `ValidationError` message built at `elmconv.py` lines 1974-1978,
with the suggestion `max_interval // original_interval` (Python floor
division, `Int.fdiv`). -/
def thinCapMessage (result_interval cap original_interval : ℤ) : String :=
  let suggestion := Int.fdiv cap original_interval
  s!"Thinning would result in {result_interval}-semitone intervals, but --thin-max-interval limits to {cap} semitones. Suggestion: Use --thin {suggestion} or lower."

/-- Selection-and-filter tail of `apply_thinning` (`elmconv.py` lines
1982-2024), reached when validation passed. -/
def thinningSelect (zone_data : List Zone) (thin_factor anchor : ℤ)
    (unique_pitches : List ℤ) (original_interval result_interval : ℤ) :
    Except PyExc (List Zone × ThinStats) :=
  let start_idx := thinStartIdx unique_pitches anchor
  let selected_pitches := thinSelectedPitches unique_pitches start_idx thin_factor.toNat
  let thinned_data := zone_data.filter (fun zd => selected_pitches.contains zd.pitch)
  Except.ok (thinned_data,
    ⟨unique_pitches.length, selected_pitches.dedup.length,
     unique_pitches.length - selected_pitches.dedup.length,
     original_interval, result_interval, zone_data.length, thinned_data.length,
     anchor, List.insertionSort (· ≤ ·) selected_pitches.dedup⟩)

/-- Embedding of `apply_thinning(zone_data, thin_factor, anchor,
max_interval)` (`elmconv.py` lines 1932-2024): `ValidationError` for
`thin_factor < 2`, early return below 2 distinct pitches, `ValidationError`
when the capped interval is exceeded, else every-Nth selection anchored at
the chosen start index and filtering of the zone list. -/
def apply_thinning (zone_data : List Zone) (thin_factor anchor : ℤ)
    (max_interval : Option ℤ) : Except PyExc (List Zone × ThinStats) :=
  if thin_factor < 2 then
    Except.error (.validationError "--thin value must be >= 2")
  else
    let analysis := analyze_sample_map zone_data
    let unique_pitches := analysis.unique_pitches
    let original_interval := analysis.interval
    if unique_pitches.length < 2 then
      Except.ok (zone_data,
        ⟨unique_pitches.length, unique_pitches.length, 0, original_interval,
         original_interval, zone_data.length, zone_data.length, anchor,
         unique_pitches⟩)
    else
      let result_interval := original_interval * thin_factor
      match max_interval with
      | some cap =>
        if cap < result_interval then
          Except.error (.validationError
            (thinCapMessage result_interval cap original_interval))
        else
          thinningSelect zone_data thin_factor anchor unique_pitches
            original_interval result_interval
      | none =>
        thinningSelect zone_data thin_factor anchor unique_pitches
          original_interval result_interval

lemma sortedDistinct_sorted (l : List ℤ) : (sortedDistinct l).Sorted (· ≤ ·) :=
  List.sorted_insertionSort _ _

lemma sortedDistinct_nodup (l : List ℤ) : (sortedDistinct l).Nodup :=
  ((List.perm_insertionSort (· ≤ ·) l.dedup).nodup_iff).mpr (List.nodup_dedup l)

lemma mem_sortedDistinct {l : List ℤ} {x : ℤ} : x ∈ sortedDistinct l ↔ x ∈ l := by
  unfold sortedDistinct
  rw [(List.perm_insertionSort (· ≤ ·) l.dedup).mem_iff, List.mem_dedup]

lemma sortedDistinct_sortedLT (l : List ℤ) : (sortedDistinct l).Sorted (· < ·) :=
  List.Sorted.lt_of_le (sortedDistinct_sorted l) (sortedDistinct_nodup l)

lemma pySetAsc_eq_sortedDistinct (l : List ℤ) : pySetAsc l = sortedDistinct l := rfl

lemma adjacentGaps_pos :
    ∀ (m : List ℤ), m.Sorted (· < ·) → ∀ g ∈ adjacentGaps m, 0 < g
  | [], _ => by simp [adjacentGaps]
  | [_], _ => by simp [adjacentGaps]
  | a :: b :: t, h => by
    intro g hg
    unfold adjacentGaps at hg
    simp only [List.tail_cons, List.zipWith_cons_cons] at hg
    rcases List.mem_cons.mp hg with rfl | hg'
    · have hab : a < b := (List.sorted_cons.mp h).1 b (by simp)
      omega
    · exact adjacentGaps_pos (b :: t) (List.sorted_cons.mp h).2 g
        (by unfold adjacentGaps; simpa using hg')

lemma find?_some_sorted_le {m : List ℤ} {p : ℤ → Bool} {r : ℤ}
    (hs : m.Sorted (· ≤ ·)) (hf : m.find? p = some r) :
    ∀ g ∈ m, p g = true → r ≤ g := by
  intro g hg hpg
  rcases List.find?_eq_some.mp hf with ⟨_, as, bs, rfl, hfail⟩
  rcases List.mem_append.mp hg with hga | hgb
  · have := hfail g hga
    simp [hpg] at this
  · rcases List.mem_cons.mp hgb with rfl | hgbs
    · exact le_refl g
    · have hsr : (r :: bs).Sorted (· ≤ ·) := (List.pairwise_append.mp hs).2.1
      exact (List.sorted_cons.mp hsr).1 g hgbs

lemma pyMaxByCount_mem {cands l : List ℤ} (h : cands ≠ []) :
    pyMaxByCount cands l ∈ cands := by
  match cands with
  | [] => exact absurd rfl h
  | c :: cs =>
    simp only [pyMaxByCount]
    rcases keepFirstMin_mem_or_init (fun g => -(l.count g : ℤ)) cs c with h' | h'
    · rw [h']
      exact List.mem_cons_self c cs
    · exact List.mem_cons_of_mem c h'

lemma pyMaxByCount_count_le {cands l : List ℤ} :
    ∀ g ∈ cands, l.count g ≤ l.count (pyMaxByCount cands l) := by
  match cands with
  | [] => simp
  | c :: cs =>
    intro g hg
    simp only [pyMaxByCount]
    have key : -(l.count (keepFirstMin (fun g => -(l.count g : ℤ)) cs c) : ℤ)
        ≤ -(l.count g : ℤ) := by
      rcases List.mem_cons.mp hg with rfl | hg'
      · exact keepFirstMin_le_init (fun g => -(l.count g : ℤ)) cs g
      · exact keepFirstMin_le_mem (fun g => -(l.count g : ℤ)) cs c g hg'
    have := neg_le_neg_iff.mp key
    exact_mod_cast this

lemma pyMaxByCount_le_tied {cands l : List ℤ} (hs : cands.Sorted (· ≤ ·)) :
    ∀ g ∈ cands, l.count g = l.count (pyMaxByCount cands l) →
      pyMaxByCount cands l ≤ g := by
  match cands with
  | [] => simp
  | c :: cs =>
    intro g hg htie
    simp only [pyMaxByCount] at htie ⊢
    have hfind := keepFirstMin_find? (fun g => -(l.count g : ℤ)) cs c
    refine find?_some_sorted_le hs hfind g hg ?_
    simp only [beq_iff_eq, neg_inj]
    exact_mod_cast htie

lemma analyze_sample_map_unique_pitches (zs : List Zone) :
    (analyze_sample_map zs).unique_pitches = sortedDistinct (zs.map (·.pitch)) := by
  unfold analyze_sample_map
  match zs with
  | [] => rfl
  | z :: t => rfl

lemma analyze_sample_map_interval (zs : List Zone)
    (h2 : 2 ≤ (sortedDistinct (zs.map (·.pitch))).length) :
    (analyze_sample_map zs).interval
      = pyMaxByCount (pySetAsc (adjacentGaps (sortedDistinct (zs.map (·.pitch)))))
          (adjacentGaps (sortedDistinct (zs.map (·.pitch)))) := by
  match zs with
  | [] => exact absurd h2 (by decide)
  | z :: t =>
    unfold analyze_sample_map
    simp only [List.isEmpty_cons, if_false, Bool.false_eq_true]
    rw [if_pos h2]

lemma adjacentGaps_ne_nil {m : List ℤ} (h2 : 2 ≤ m.length) :
    adjacentGaps m ≠ [] := by
  match m with
  | a :: b :: t =>
    unfold adjacentGaps
    simp

lemma mem_pySetAsc {l : List ℤ} {x : ℤ} : x ∈ pySetAsc l ↔ x ∈ l :=
  mem_sortedDistinct

/-- Interval of an analysis with at least two distinct pitches: positive and
itself one of the adjacent gaps. -/
lemma analyze_interval_pos_mem (zs : List Zone)
    (h2 : 2 ≤ (analyze_sample_map zs).unique_pitches.length) :
    0 < (analyze_sample_map zs).interval
    ∧ (analyze_sample_map zs).interval
        ∈ adjacentGaps (analyze_sample_map zs).unique_pitches := by
  rw [analyze_sample_map_unique_pitches] at h2 ⊢
  rw [analyze_sample_map_interval zs h2]
  set up := sortedDistinct (zs.map (·.pitch)) with hup
  have hne : adjacentGaps up ≠ [] := adjacentGaps_ne_nil h2
  have hcne : pySetAsc (adjacentGaps up) ≠ [] := by
    intro h
    rcases List.exists_mem_of_ne_nil _ hne with ⟨g, hg⟩
    have : g ∈ pySetAsc (adjacentGaps up) := mem_pySetAsc.mpr hg
    rw [h] at this
    exact List.not_mem_nil g this
  have hmem : pyMaxByCount (pySetAsc (adjacentGaps up)) (adjacentGaps up)
      ∈ adjacentGaps up :=
    mem_pySetAsc.mp (pyMaxByCount_mem hcne)
  exact ⟨adjacentGaps_pos up (sortedDistinct_sortedLT _) _ hmem, hmem⟩

/-- Mode with first-occurrence tie-break, as the specification words it: the
gap value with the maximal count and, among values tied for the highest
count, the one whose first occurrence in the gap sequence comes earliest
(`l.dedup` lists the distinct values in first-occurrence order and
`pyMaxByCount` keeps the first maximal-count candidate). -/
def specFirstOccurrenceMode (l : List ℤ) : ℤ := pyMaxByCount l.dedup l

/-- C7 counterexample: for distinct pitches 60, 63, 64, 67, 68 the adjacent
gaps are `[3, 1, 3, 1]`; the values 1 and 3 are tied for the highest count
and the first occurrence of 3 comes earliest, yet the code's
`max(set(intervals), key=intervals.count)` iterates the set in ascending
order and returns 1, not 3. -/
theorem dominant_interval_tiebreak_counterexample :
    (analyze_sample_map
        [⟨60, 0, -1, false, 0, 0⟩, ⟨63, 0, -1, false, 0, 0⟩,
         ⟨64, 0, -1, false, 0, 0⟩, ⟨67, 0, -1, false, 0, 0⟩,
         ⟨68, 0, -1, false, 0, 0⟩]).interval = 1
    ∧ adjacentGaps
        (analyze_sample_map
          [⟨60, 0, -1, false, 0, 0⟩, ⟨63, 0, -1, false, 0, 0⟩,
           ⟨64, 0, -1, false, 0, 0⟩, ⟨67, 0, -1, false, 0, 0⟩,
           ⟨68, 0, -1, false, 0, 0⟩]).unique_pitches = [3, 1, 3, 1]
    ∧ specFirstOccurrenceMode [3, 1, 3, 1] = 3
    ∧ (1 : ℤ) ≠ 3 := by
  refine ⟨by decide, by decide, by decide, by decide⟩

/-- C7 amended: for zone data with at least two distinct pitches, the
dominant interval is a statistical mode of the gaps between adjacent
distinct pitches; the tie-break among values with the highest count is
Python set iteration order, not first occurrence in the gap sequence.  The
smallest-tied-value conclusion is asserted only for zone data whose
adjacent-pitch gaps are all below 8 (the `hsmall` hypothesis): there every
gap occupies the hash-table slot equal to its own value, CPython iterates
`set(intervals)` in ascending order, and `max` keeps the smallest tied
value.  For tied gap values of 8 or more the iteration order wraps around
the table (e.g. `set({5, 12})` iterates as `[12, 5]`) and the code can
return a different tied value, so no tie-break conclusion is claimed
there. -/
theorem dominant_interval_mode_smallest_tied (zs : List Zone)
    (h2 : 2 ≤ (analyze_sample_map zs).unique_pitches.length)
    (hsmall : (adjacentGaps (analyze_sample_map zs).unique_pitches).all
        (fun g => decide (g < 8)) = true) :
    (analyze_sample_map zs).interval
        ∈ adjacentGaps (analyze_sample_map zs).unique_pitches
    ∧ (adjacentGaps (analyze_sample_map zs).unique_pitches).all
        (fun g =>
          decide ((adjacentGaps (analyze_sample_map zs).unique_pitches).count g
            ≤ (adjacentGaps (analyze_sample_map zs).unique_pitches).count
                (analyze_sample_map zs).interval)) = true
    ∧ (adjacentGaps (analyze_sample_map zs).unique_pitches).all
        (fun g =>
          !((adjacentGaps (analyze_sample_map zs).unique_pitches).count g
              == (adjacentGaps (analyze_sample_map zs).unique_pitches).count
                  (analyze_sample_map zs).interval)
            || decide ((analyze_sample_map zs).interval ≤ g)) = true := by
  have hmem := (analyze_interval_pos_mem zs h2).2
  refine ⟨hmem, ?_, ?_⟩
  · rw [analyze_sample_map_unique_pitches] at h2 ⊢
    rw [analyze_sample_map_interval zs h2]
    simp only [List.all_eq_true, decide_eq_true_eq]
    intro g hg
    exact pyMaxByCount_count_le g (mem_pySetAsc.mpr hg)
  · rw [analyze_sample_map_unique_pitches] at h2 ⊢
    rw [analyze_sample_map_interval zs h2]
    simp only [List.all_eq_true, Bool.or_eq_true, Bool.not_eq_true', beq_eq_false_iff_ne,
      ne_eq, decide_eq_true_eq]
    intro g hg
    by_cases htie : (adjacentGaps (sortedDistinct (zs.map (·.pitch)))).count g
        = (adjacentGaps (sortedDistinct (zs.map (·.pitch)))).count
            (pyMaxByCount (pySetAsc (adjacentGaps (sortedDistinct (zs.map (·.pitch)))))
              (adjacentGaps (sortedDistinct (zs.map (·.pitch)))))
    · refine Or.inr ?_
      refine pyMaxByCount_le_tied ?_ g (mem_pySetAsc.mpr hg) htie
      exact sortedDistinct_sorted _
    · exact Or.inl htie

/-- Witness for the amended C7 at a concrete input. -/
theorem dominant_interval_mode_smallest_tied_witness :
    2 ≤ (analyze_sample_map
        [⟨60, 0, -1, false, 0, 0⟩, ⟨61, 0, -1, false, 0, 0⟩,
         ⟨63, 0, -1, false, 0, 0⟩]).unique_pitches.length
    ∧ (adjacentGaps (analyze_sample_map
        [⟨60, 0, -1, false, 0, 0⟩, ⟨61, 0, -1, false, 0, 0⟩,
         ⟨63, 0, -1, false, 0, 0⟩]).unique_pitches).all
        (fun g => decide (g < 8)) = true
    ∧ ((analyze_sample_map
          [⟨60, 0, -1, false, 0, 0⟩, ⟨61, 0, -1, false, 0, 0⟩,
           ⟨63, 0, -1, false, 0, 0⟩]).interval
        ∈ adjacentGaps (analyze_sample_map
          [⟨60, 0, -1, false, 0, 0⟩, ⟨61, 0, -1, false, 0, 0⟩,
           ⟨63, 0, -1, false, 0, 0⟩]).unique_pitches
      ∧ (adjacentGaps (analyze_sample_map
          [⟨60, 0, -1, false, 0, 0⟩, ⟨61, 0, -1, false, 0, 0⟩,
           ⟨63, 0, -1, false, 0, 0⟩]).unique_pitches).all
          (fun g =>
            decide ((adjacentGaps (analyze_sample_map
              [⟨60, 0, -1, false, 0, 0⟩, ⟨61, 0, -1, false, 0, 0⟩,
               ⟨63, 0, -1, false, 0, 0⟩]).unique_pitches).count g
              ≤ (adjacentGaps (analyze_sample_map
                [⟨60, 0, -1, false, 0, 0⟩, ⟨61, 0, -1, false, 0, 0⟩,
                 ⟨63, 0, -1, false, 0, 0⟩]).unique_pitches).count
                  (analyze_sample_map
                    [⟨60, 0, -1, false, 0, 0⟩, ⟨61, 0, -1, false, 0, 0⟩,
                     ⟨63, 0, -1, false, 0, 0⟩]).interval)) = true
      ∧ (adjacentGaps (analyze_sample_map
          [⟨60, 0, -1, false, 0, 0⟩, ⟨61, 0, -1, false, 0, 0⟩,
           ⟨63, 0, -1, false, 0, 0⟩]).unique_pitches).all
          (fun g =>
            !((adjacentGaps (analyze_sample_map
                [⟨60, 0, -1, false, 0, 0⟩, ⟨61, 0, -1, false, 0, 0⟩,
                 ⟨63, 0, -1, false, 0, 0⟩]).unique_pitches).count g
                == (adjacentGaps (analyze_sample_map
                  [⟨60, 0, -1, false, 0, 0⟩, ⟨61, 0, -1, false, 0, 0⟩,
                   ⟨63, 0, -1, false, 0, 0⟩]).unique_pitches).count
                    (analyze_sample_map
                      [⟨60, 0, -1, false, 0, 0⟩, ⟨61, 0, -1, false, 0, 0⟩,
                       ⟨63, 0, -1, false, 0, 0⟩]).interval)
              || decide ((analyze_sample_map
                  [⟨60, 0, -1, false, 0, 0⟩, ⟨61, 0, -1, false, 0, 0⟩,
                   ⟨63, 0, -1, false, 0, 0⟩]).interval ≤ g)) = true) :=
  ⟨by decide, by decide,
    dominant_interval_mode_smallest_tied _ (by decide) (by decide)⟩

/-- C5: `apply_thinning` raises `ValidationError` whenever the thin factor is
below 2; and for zone data with at least 2 distinct pitches and a supplied
maximum-interval cap it fails (with a `ValidationError` whose message
suggests `cap // dominant_interval`, the largest factor whose resulting
interval still fits the cap) exactly when `dominant_interval * thin_factor`
exceeds the cap. -/
theorem apply_thinning_cap_validation (zone_data : List Zone)
    (N Nbad anchor cap : ℤ) (mi : Option ℤ) (hbad : Nbad < 2) (hN : 2 ≤ N)
    (hp : 2 ≤ (analyze_sample_map zone_data).unique_pitches.length) :
    apply_thinning zone_data Nbad anchor mi
      = Except.error (PyExc.validationError "--thin value must be >= 2")
    ∧ ((apply_thinning zone_data N anchor (some cap)).toOption = none
        ↔ cap < (analyze_sample_map zone_data).interval * N)
    ∧ (cap < (analyze_sample_map zone_data).interval * N →
        apply_thinning zone_data N anchor (some cap)
          = Except.error (PyExc.validationError
              (thinCapMessage ((analyze_sample_map zone_data).interval * N) cap
                (analyze_sample_map zone_data).interval))
        ∧ (analyze_sample_map zone_data).interval
            * Int.fdiv cap (analyze_sample_map zone_data).interval ≤ cap
        ∧ cap < (analyze_sample_map zone_data).interval
            * (Int.fdiv cap (analyze_sample_map zone_data).interval + 1)) := by
  have hN2 : ¬N < 2 := by omega
  have hp2 : ¬(analyze_sample_map zone_data).unique_pitches.length < 2 := by omega
  refine ⟨?_, ?_, ?_⟩
  · simp only [apply_thinning, if_pos hbad]
  · simp only [apply_thinning, if_neg hN2, if_neg hp2]
    by_cases hcap : cap < (analyze_sample_map zone_data).interval * N
    · simp only [if_pos hcap]
      exact ⟨fun _ => hcap, fun _ => rfl⟩
    · simp only [if_neg hcap, thinningSelect]
      constructor
      · intro h
        simp [Except.toOption] at h
      · intro h
        exact absurd h hcap
  · intro hcap
    have hd : 0 < (analyze_sample_map zone_data).interval :=
      (analyze_interval_pos_mem zone_data hp).1
    refine ⟨?_, ?_, ?_⟩
    · simp only [apply_thinning, if_neg hN2, if_neg hp2, if_pos hcap]
    · have heq := Int.fdiv_add_fmod cap (analyze_sample_map zone_data).interval
      have h0 := Int.fmod_nonneg' cap hd
      omega
    · have heq := Int.fdiv_add_fmod cap (analyze_sample_map zone_data).interval
      have h1 := Int.fmod_lt_of_pos cap hd
      have hdist : (analyze_sample_map zone_data).interval
          * (Int.fdiv cap (analyze_sample_map zone_data).interval + 1)
          = (analyze_sample_map zone_data).interval
            * Int.fdiv cap (analyze_sample_map zone_data).interval
            + (analyze_sample_map zone_data).interval := by ring
      omega

/-- Witness for C5 at a concrete input. -/
theorem apply_thinning_cap_validation_witness :
    (1 : ℤ) < 2 ∧ (2 : ℤ) ≤ 3
    ∧ 2 ≤ (analyze_sample_map
        [⟨60, 0, -1, false, 0, 0⟩, ⟨61, 0, -1, false, 0, 0⟩,
         ⟨62, 0, -1, false, 0, 0⟩]).unique_pitches.length
    ∧ (apply_thinning
        [⟨60, 0, -1, false, 0, 0⟩, ⟨61, 0, -1, false, 0, 0⟩,
         ⟨62, 0, -1, false, 0, 0⟩] 1 0 none
        = Except.error (PyExc.validationError "--thin value must be >= 2")
      ∧ ((apply_thinning
          [⟨60, 0, -1, false, 0, 0⟩, ⟨61, 0, -1, false, 0, 0⟩,
           ⟨62, 0, -1, false, 0, 0⟩] 3 0 (some 2)).toOption = none
          ↔ (2 : ℤ) < (analyze_sample_map
              [⟨60, 0, -1, false, 0, 0⟩, ⟨61, 0, -1, false, 0, 0⟩,
               ⟨62, 0, -1, false, 0, 0⟩]).interval * 3)
      ∧ ((2 : ℤ) < (analyze_sample_map
            [⟨60, 0, -1, false, 0, 0⟩, ⟨61, 0, -1, false, 0, 0⟩,
             ⟨62, 0, -1, false, 0, 0⟩]).interval * 3 →
          apply_thinning
            [⟨60, 0, -1, false, 0, 0⟩, ⟨61, 0, -1, false, 0, 0⟩,
             ⟨62, 0, -1, false, 0, 0⟩] 3 0 (some 2)
            = Except.error (PyExc.validationError
                (thinCapMessage ((analyze_sample_map
                    [⟨60, 0, -1, false, 0, 0⟩, ⟨61, 0, -1, false, 0, 0⟩,
                     ⟨62, 0, -1, false, 0, 0⟩]).interval * 3) 2
                  (analyze_sample_map
                    [⟨60, 0, -1, false, 0, 0⟩, ⟨61, 0, -1, false, 0, 0⟩,
                     ⟨62, 0, -1, false, 0, 0⟩]).interval))
          ∧ (analyze_sample_map
              [⟨60, 0, -1, false, 0, 0⟩, ⟨61, 0, -1, false, 0, 0⟩,
               ⟨62, 0, -1, false, 0, 0⟩]).interval
              * Int.fdiv 2 (analyze_sample_map
                [⟨60, 0, -1, false, 0, 0⟩, ⟨61, 0, -1, false, 0, 0⟩,
                 ⟨62, 0, -1, false, 0, 0⟩]).interval ≤ 2
          ∧ (2 : ℤ) < (analyze_sample_map
              [⟨60, 0, -1, false, 0, 0⟩, ⟨61, 0, -1, false, 0, 0⟩,
               ⟨62, 0, -1, false, 0, 0⟩]).interval
              * (Int.fdiv 2 (analyze_sample_map
                  [⟨60, 0, -1, false, 0, 0⟩, ⟨61, 0, -1, false, 0, 0⟩,
                   ⟨62, 0, -1, false, 0, 0⟩]).interval + 1))) :=
  ⟨by norm_num, by norm_num, by decide,
    apply_thinning_cap_validation _ 3 1 0 2 none (by norm_num) (by norm_num)
      (by decide)⟩

lemma circularPitchClassDist_nonneg (p a : ℤ) : 0 ≤ circularPitchClassDist p a := by
  unfold circularPitchClassDist
  have h1 : 0 ≤ (p % 12 - a) % 12 := Int.emod_nonneg _ (by norm_num)
  have h2 : 0 ≤ (a - p % 12) % 12 := Int.emod_nonneg _ (by norm_num)
  exact le_min h1 h2

lemma circularPitchClassDist_lt_twelve (p a : ℤ) : circularPitchClassDist p a < 12 := by
  unfold circularPitchClassDist
  have h1 : (p % 12 - a) % 12 < 12 := Int.emod_lt_of_pos _ (by norm_num)
  exact lt_of_le_of_lt (min_le_left _ _) h1

lemma find?_eq_of_first (l : List ℤ) (p : ℤ → Bool) (j : ℕ) (hj : j < l.length)
    (hpj : p (l.getD j 0) = true) (hfail : ∀ k, k < j → p (l.getD k 0) = false) :
    l.find? p = some (l.getD j 0) := by
  induction l generalizing j with
  | nil => simp at hj
  | cons a t ih =>
    cases j with
    | zero =>
      simp only [List.getD_cons_zero] at hpj ⊢
      exact List.find?_cons_of_pos _ hpj
    | succ j =>
      have h0 : p a = false := by
        have := hfail 0 (Nat.succ_pos j)
        simpa using this
      simp only [List.getD_cons_succ] at hpj ⊢
      rw [List.find?_cons_of_neg _ (by simp [h0])]
      refine ih j (by simpa using hj) hpj ?_
      intro k hk
      have := hfail (k + 1) (Nat.succ_lt_succ hk)
      simpa using this

lemma thinClosestScan_no_improve (anchor : ℤ) :
    ∀ (l : List ℤ) (n : ℕ) (d : ℤ) (i : ℕ),
      (∀ p ∈ l, ¬(circularPitchClassDist p anchor < d)) →
      thinClosestScan anchor (l.enumFrom n) (d, i) = (d, i)
  | [], _, _, _, _ => rfl
  | p :: rest, n, d, i, h => by
    rw [List.enumFrom_cons]
    simp only [thinClosestScan]
    rw [if_neg (h p (by simp))]
    exact thinClosestScan_no_improve anchor rest (n + 1) d i
      (fun q hq => h q (by simp [hq]))

lemma thinClosestScan_improve (anchor : ℤ) (l : List ℤ) :
    ∀ (n : ℕ) (d : ℤ) (i : ℕ),
      (∃ p ∈ l, circularPitchClassDist p anchor < d) →
      ∃ j, j < l.length
        ∧ thinClosestScan anchor (l.enumFrom n) (d, i)
            = (circularPitchClassDist (l.getD j 0) anchor, n + j)
        ∧ circularPitchClassDist (l.getD j 0) anchor < d
        ∧ (∀ k, k < l.length →
            circularPitchClassDist (l.getD j 0) anchor
              ≤ circularPitchClassDist (l.getD k 0) anchor)
        ∧ (∀ k, k < j →
            circularPitchClassDist (l.getD j 0) anchor
              < circularPitchClassDist (l.getD k 0) anchor) := by
  induction l with
  | nil =>
    intro n d i h
    simp at h
  | cons p rest ih =>
    intro n d i h
    rw [List.enumFrom_cons]
    simp only [thinClosestScan]
    by_cases hc : circularPitchClassDist p anchor < d
    · rw [if_pos (by simpa using hc)]
      by_cases himp : ∃ q ∈ rest,
          circularPitchClassDist q anchor < circularPitchClassDist p anchor
      · obtain ⟨j', hj'len, heq, hlt, hmin, hfirst⟩ :=
          ih (n + 1) (circularPitchClassDist p anchor) n himp
        refine ⟨j' + 1, Nat.succ_lt_succ hj'len, ?_, ?_, ?_, ?_⟩
        · rw [heq]
          simp only [List.getD_cons_succ]
          have : n + 1 + j' = n + (j' + 1) := by omega
          rw [this]
        · simp only [List.getD_cons_succ]
          exact lt_trans hlt hc
        · intro k hk
          cases k with
          | zero =>
            simp only [List.getD_cons_succ, List.getD_cons_zero]
            exact le_of_lt hlt
          | succ k =>
            simp only [List.getD_cons_succ]
            exact hmin k (by simpa using hk)
        · intro k hk
          cases k with
          | zero =>
            simp only [List.getD_cons_succ, List.getD_cons_zero]
            exact hlt
          | succ k =>
            simp only [List.getD_cons_succ]
            exact hfirst k (by omega)
      · push_neg at himp
        rw [thinClosestScan_no_improve anchor rest (n + 1) _ n
          (fun q hq => not_lt.mpr (himp q hq))]
        refine ⟨0, Nat.succ_pos _, by simp, by simpa using hc, ?_, by omega⟩
        intro k hk
        cases k with
        | zero => simp
        | succ k =>
          simp only [List.getD_cons_succ, List.getD_cons_zero]
          refine himp _ ?_
          have hk' : k < rest.length := by simpa using hk
          rw [List.getD_eq_getElem rest 0 hk']
          exact List.getElem_mem hk'
    · rw [if_neg (by simpa using hc)]
      have himp : ∃ q ∈ rest, circularPitchClassDist q anchor < d := by
        obtain ⟨q, hq, hqd⟩ := h
        rcases List.mem_cons.mp hq with rfl | hq'
        · exact absurd hqd hc
        · exact ⟨q, hq', hqd⟩
      obtain ⟨j', hj'len, heq, hlt, hmin, hfirst⟩ := ih (n + 1) d i himp
      have hdp : d ≤ circularPitchClassDist p anchor := not_lt.mp hc
      refine ⟨j' + 1, Nat.succ_lt_succ hj'len, ?_, by simpa using hlt, ?_, ?_⟩
      · rw [heq]
        simp only [List.getD_cons_succ]
        have : n + 1 + j' = n + (j' + 1) := by omega
        rw [this]
      · intro k hk
        cases k with
        | zero =>
          simp only [List.getD_cons_succ, List.getD_cons_zero]
          exact le_of_lt (lt_of_lt_of_le hlt hdp)
        | succ k =>
          simp only [List.getD_cons_succ]
          exact hmin k (by simpa using hk)
      · intro k hk
        cases k with
        | zero =>
          simp only [List.getD_cons_succ, List.getD_cons_zero]
          exact lt_of_lt_of_le hlt hdp
        | succ k =>
          simp only [List.getD_cons_succ]
          exact hfirst k (by omega)

lemma thinStartIdx_spec (up : List ℤ) (anchor : ℤ) (hne : up ≠ []) :
    thinStartIdx up anchor < up.length
    ∧ (up.any (fun p => p % 12 == anchor) = true →
        up.find? (fun p => p % 12 == anchor)
          = some (up.getD (thinStartIdx up anchor) 0))
    ∧ (up.all (fun p => !(p % 12 == anchor)) = true →
        (∀ k, k < up.length →
          circularPitchClassDist (up.getD (thinStartIdx up anchor) 0) anchor
            ≤ circularPitchClassDist (up.getD k 0) anchor)
        ∧ (∀ k, k < thinStartIdx up anchor →
          circularPitchClassDist (up.getD (thinStartIdx up anchor) 0) anchor
            < circularPitchClassDist (up.getD k 0) anchor)) := by
  match hfi : up.findIdx? (fun p => p % 12 == anchor) with
  | some i =>
    have hstart : thinStartIdx up anchor = i := by
      unfold thinStartIdx
      rw [hfi]
    obtain ⟨hlen, hpi, hfail⟩ := List.findIdx?_eq_some_iff_getElem.mp hfi
    refine ⟨hstart ▸ hlen, ?_, ?_⟩
    · intro _
      rw [hstart]
      refine find?_eq_of_first up _ i hlen ?_ ?_
      · rw [List.getD_eq_getElem up 0 hlen]
        exact hpi
      · intro k hk
        rw [List.getD_eq_getElem up 0 (lt_trans hk hlen)]
        exact Bool.not_eq_true _ ▸ hfail k hk
    · intro hall
      exfalso
      have hmem : up[i] ∈ up := List.getElem_mem hlen
      have := List.all_eq_true.mp hall _ hmem
      simp only [Bool.not_eq_eq_eq_not, Bool.not_true] at this
      rw [this] at hpi
      cases hpi
  | none =>
    have hanyf : up.any (fun p => p % 12 == anchor) = false := by
      have := @List.findIdx?_isSome ℤ up (fun p => p % 12 == anchor)
      rw [hfi] at this
      simpa using this.symm
    obtain ⟨p, rest, rfl⟩ : ∃ p rest, up = p :: rest := by
      cases up with
      | nil => exact absurd rfl hne
      | cons p rest => exact ⟨p, rest, rfl⟩
    have himp : ∃ q ∈ p :: rest, circularPitchClassDist q anchor < 12 :=
      ⟨p, by simp, circularPitchClassDist_lt_twelve p anchor⟩
    obtain ⟨j, hj, heq, _, hmin, hfirst⟩ :=
      thinClosestScan_improve anchor (p :: rest) 0 12 0 himp
    have hstart : thinStartIdx (p :: rest) anchor = j := by
      unfold thinStartIdx
      rw [hfi]
      have henum : (p :: rest).enum = (p :: rest).enumFrom 0 := rfl
      rw [henum, heq]
      simp
    refine ⟨hstart ▸ hj, ?_, ?_⟩
    · intro hany
      rw [hany] at hanyf
      cases hanyf
    · intro _
      rw [hstart]
      exact ⟨hmin, hfirst⟩

lemma mem_thinForwardIdxs {start N len i : ℕ} (hN : 0 < N) :
    i ∈ thinForwardIdxs start N len
      ↔ ∃ k, k * N < len - start ∧ i = start + k * N := by
  unfold thinForwardIdxs
  simp only [List.mem_map, List.mem_range]
  constructor
  · rintro ⟨k, hk, rfl⟩
    refine ⟨k, ?_, rfl⟩
    have hk1 : k + 1 ≤ (len - start + N - 1) / N := hk
    have := (Nat.le_div_iff_mul_le hN).mp hk1
    have hdist : (k + 1) * N = k * N + N := by ring
    set t := k * N
    omega
  · rintro ⟨k, hk, rfl⟩
    refine ⟨k, ?_, rfl⟩
    have hdist : (k + 1) * N = k * N + N := by ring
    have : (k + 1) * N ≤ len - start + N - 1 := by
      set t := k * N
      omega
    exact (Nat.le_div_iff_mul_le hN).mpr this

lemma mem_thinBackwardIdxs {start N i : ℕ} (hN : 0 < N) :
    i ∈ thinBackwardIdxs start N
      ↔ ∃ k, (k + 1) * N ≤ start ∧ i = start - (k + 1) * N := by
  unfold thinBackwardIdxs
  simp only [List.mem_map, List.mem_range]
  constructor
  · rintro ⟨k, hk, rfl⟩
    exact ⟨k, (Nat.le_div_iff_mul_le hN).mp hk, rfl⟩
  · rintro ⟨k, hk, rfl⟩
    exact ⟨k, (Nat.le_div_iff_mul_le hN).mpr hk, rfl⟩

lemma mem_thinIdxs {start N len : ℕ} (hN : 0 < N) (hstart : start < len) (i : ℕ) :
    (i ∈ thinForwardIdxs start N len ∨ i ∈ thinBackwardIdxs start N)
      ↔ (i < len ∧ i % N = start % N) := by
  rw [mem_thinForwardIdxs hN, mem_thinBackwardIdxs hN]
  constructor
  · rintro (⟨k, hk, rfl⟩ | ⟨k, hk, rfl⟩)
    · have hmod : (start + k * N) % N = start % N :=
        Nat.add_mul_mod_self_right start k N
      constructor
      · set t := k * N
        omega
      · exact hmod
    · have hi : start - (k + 1) * N + (k + 1) * N = start := by
        set t := (k + 1) * N
        omega
      have hmod : (start - (k + 1) * N + (k + 1) * N) % N
          = (start - (k + 1) * N) % N :=
        Nat.add_mul_mod_self_right (start - (k + 1) * N) (k + 1) N
      constructor
      · have hNpos : 0 < (k + 1) * N := Nat.mul_pos (Nat.succ_pos k) hN
        set t := (k + 1) * N
        omega
      · rw [hi] at hmod
        exact hmod.symm
  · rintro ⟨hilen, hmod⟩
    rcases le_or_lt start i with hle | hlt
    · left
      have hdvd : N ∣ i - start := (Nat.modEq_iff_dvd' hle).mp hmod.symm
      obtain ⟨k, hk⟩ := hdvd
      refine ⟨k, ?_, ?_⟩
      · rw [Nat.mul_comm] at hk
        set t := k * N
        omega
      · rw [Nat.mul_comm] at hk
        set t := k * N
        omega
    · right
      have hdvd : N ∣ start - i := (Nat.modEq_iff_dvd' (le_of_lt hlt)).mp hmod
      obtain ⟨m, hm⟩ := hdvd
      have hm1 : 1 ≤ m := by
        rcases Nat.eq_zero_or_pos m with rfl | h
        · simp at hm
          omega
        · exact h
      refine ⟨m - 1, ?_, ?_⟩
      · have : (m - 1 + 1) = m := by omega
        rw [this, Nat.mul_comm]
        omega
      · have : (m - 1 + 1) = m := by omega
        rw [this, Nat.mul_comm, ← hm]
        omega

lemma getD_lt_of_sortedLT {m : List ℤ} (h : m.Sorted (· < ·)) {a b : ℕ}
    (hb : b < m.length) (hab : a < b) :
    m.getD a 0 < m.getD b 0 := by
  have ha : a < m.length := lt_trans hab hb
  rw [List.getD_eq_getElem m 0 ha, List.getD_eq_getElem m 0 hb]
  exact List.Sorted.rel_get_of_lt h
    (show (⟨a, ha⟩ : Fin m.length) < ⟨b, hb⟩ from hab)

lemma thinSelected_sorted_eq (up : List ℤ) (hsorted : up.Sorted (· < ·))
    (start N : ℕ) (hN : 0 < N) (hstart : start < up.length) :
    List.insertionSort (· ≤ ·) (thinSelectedPitches up start N).dedup
      = ((List.range up.length).filter (fun i => i % N == start % N)).map
          (fun i => up.getD i 0) := by
  have hmemL : ∀ x,
      x ∈ List.insertionSort (· ≤ ·) (thinSelectedPitches up start N).dedup
        ↔ ∃ i, i < up.length ∧ i % N = start % N ∧ up.getD i 0 = x := by
    intro x
    rw [(List.perm_insertionSort (· ≤ ·) _).mem_iff, List.mem_dedup]
    unfold thinSelectedPitches
    simp only [List.mem_map, List.mem_append]
    constructor
    · rintro ⟨i, hi, rfl⟩
      obtain ⟨hilen, himod⟩ := (mem_thinIdxs hN hstart i).mp hi
      exact ⟨i, hilen, himod, rfl⟩
    · rintro ⟨i, hilen, himod, rfl⟩
      exact ⟨i, (mem_thinIdxs hN hstart i).mpr ⟨hilen, himod⟩, rfl⟩
  have hmemR : ∀ x,
      x ∈ ((List.range up.length).filter (fun i => i % N == start % N)).map
          (fun i => up.getD i 0)
        ↔ ∃ i, i < up.length ∧ i % N = start % N ∧ up.getD i 0 = x := by
    intro x
    simp only [List.mem_map, List.mem_filter, List.mem_range, beq_iff_eq]
    constructor
    · rintro ⟨i, ⟨hilen, himod⟩, rfl⟩
      exact ⟨i, hilen, himod, rfl⟩
    · rintro ⟨i, hilen, himod, rfl⟩
      exact ⟨i, ⟨hilen, himod⟩, rfl⟩
  have hfilter_sorted :
      ((List.range up.length).filter (fun i => i % N == start % N)).Sorted (· < ·) :=
    List.Sorted.filter _ (List.sorted_lt_range up.length)
  have hRsortedLT :
      (((List.range up.length).filter (fun i => i % N == start % N)).map
          (fun i => up.getD i 0)).Sorted (· < ·) := by
    have : List.Pairwise (· < ·)
        (((List.range up.length).filter (fun i => i % N == start % N)).map
          (fun i => up.getD i 0)) := by
      rw [List.pairwise_map]
      refine List.Pairwise.imp_of_mem (fun {a b} ha hb hab => ?_) hfilter_sorted
      have hb' : b < up.length := List.mem_range.mp (List.mem_filter.mp hb).1
      exact getD_lt_of_sortedLT hsorted hb' hab
    exact this
  have hLsorted := List.sorted_insertionSort (· ≤ ·) (thinSelectedPitches up start N).dedup
  have hLnodup :
      (List.insertionSort (· ≤ ·) (thinSelectedPitches up start N).dedup).Nodup :=
    ((List.perm_insertionSort (· ≤ ·) _).nodup_iff).mpr (List.nodup_dedup _)
  have hRnodup := List.Sorted.nodup hRsortedLT
  have hperm := (List.perm_ext_iff_of_nodup hLnodup hRnodup).mpr
    (fun a => (hmemL a).trans (hmemR a).symm)
  exact List.eq_of_perm_of_sorted hperm hLsorted (List.Sorted.le_of_lt hRsortedLT)

/-- The sorted distinct pitch list an analysis exposes (alias used by the
selection theorems). -/
def analyzedPitches (zs : List Zone) : List ℤ :=
  (analyze_sample_map zs).unique_pitches

/-- The start index the thinning engine chooses for a zone list and anchor. -/
def thinningStart (zs : List Zone) (anchor : ℤ) : ℕ :=
  thinStartIdx (analyzedPitches zs) anchor

/-- C6: for zone data with at least 2 distinct pitches, the selection start
index is the first pitch whose pitch class equals the anchor (or, if none
exists, the first pitch of minimal circular pitch-class distance to the
anchor), the kept pitch set is exactly the pitches at indices congruent to
the start index modulo N (every Nth forward and backward, inclusive), the
surviving zone list is the input filtered by kept pitch (zones at kept
pitches unmodified, all zones at dropped pitches removed), and N=2,
anchor=0 on pitches 60..72 keeps exactly 60,62,64,66,68,70,72. -/
theorem apply_thinning_selects_every_nth (zone_data : List Zone) (N anchor : ℤ)
    (hN : 2 ≤ N) (hp : 2 ≤ (analyzedPitches zone_data).length) :
    thinningStart zone_data anchor < (analyzedPitches zone_data).length
    ∧ ((analyzedPitches zone_data).any (fun p => p % 12 == anchor) = true →
        (analyzedPitches zone_data).find? (fun p => p % 12 == anchor)
          = some ((analyzedPitches zone_data).getD (thinningStart zone_data anchor) 0))
    ∧ ((analyzedPitches zone_data).all (fun p => !(p % 12 == anchor)) = true →
        ((analyzedPitches zone_data).all (fun p =>
            decide (circularPitchClassDist
                ((analyzedPitches zone_data).getD (thinningStart zone_data anchor) 0)
                anchor
              ≤ circularPitchClassDist p anchor)) = true
         ∧ (analyzedPitches zone_data).find? (fun p =>
              circularPitchClassDist p anchor
                == circularPitchClassDist
                    ((analyzedPitches zone_data).getD
                      (thinningStart zone_data anchor) 0) anchor)
            = some ((analyzedPitches zone_data).getD
                (thinningStart zone_data anchor) 0)))
    ∧ List.insertionSort (· ≤ ·)
        (thinSelectedPitches (analyzedPitches zone_data)
          (thinningStart zone_data anchor) N.toNat).dedup
        = ((List.range (analyzedPitches zone_data).length).filter
            (fun i => i % N.toNat == thinningStart zone_data anchor % N.toNat)).map
            (fun i => (analyzedPitches zone_data).getD i 0)
    ∧ (apply_thinning zone_data N anchor none).toOption.map Prod.fst
        = some (zone_data.filter (fun zd =>
            (thinSelectedPitches (analyzedPitches zone_data)
              (thinningStart zone_data anchor) N.toNat).contains zd.pitch))
    ∧ (apply_thinning
        [⟨60, 0, -1, false, 0, 0⟩, ⟨61, 0, -1, false, 0, 0⟩,
         ⟨62, 0, -1, false, 0, 0⟩, ⟨63, 0, -1, false, 0, 0⟩,
         ⟨64, 0, -1, false, 0, 0⟩, ⟨65, 0, -1, false, 0, 0⟩,
         ⟨66, 0, -1, false, 0, 0⟩, ⟨67, 0, -1, false, 0, 0⟩,
         ⟨68, 0, -1, false, 0, 0⟩, ⟨69, 0, -1, false, 0, 0⟩,
         ⟨70, 0, -1, false, 0, 0⟩, ⟨71, 0, -1, false, 0, 0⟩,
         ⟨72, 0, -1, false, 0, 0⟩] 2 0 none).toOption.map
          (fun r => r.2.selected_pitches)
        = some [60, 62, 64, 66, 68, 70, 72] := by
  unfold thinningStart
  have hne : analyzedPitches zone_data ≠ [] := by
    intro h
    rw [h] at hp
    simp at hp
  obtain ⟨h1, h2, h3⟩ := thinStartIdx_spec (analyzedPitches zone_data) anchor hne
  refine ⟨h1, h2, ?_, ?_, ?_, ?_⟩
  · intro hall
    obtain ⟨hmin, hfirst⟩ := h3 hall
    constructor
    · rw [List.all_eq_true]
      intro p hpmem
      rw [decide_eq_true_eq]
      obtain ⟨k, hklen, hkp⟩ := List.mem_iff_getElem.mp hpmem
      rw [← hkp, ← List.getD_eq_getElem (analyzedPitches zone_data) 0 hklen]
      exact hmin k hklen
    · refine find?_eq_of_first (analyzedPitches zone_data) _
        (thinStartIdx (analyzedPitches zone_data) anchor) h1
        (by simp) ?_
      intro k hk
      have := hfirst k hk
      simp only [beq_eq_false_iff_ne, ne_eq]
      omega
  · refine thinSelected_sorted_eq (analyzedPitches zone_data) ?_
      (thinStartIdx (analyzedPitches zone_data) anchor) N.toNat (by omega) h1
    have hup : analyzedPitches zone_data = sortedDistinct (zone_data.map (·.pitch)) :=
      analyze_sample_map_unique_pitches zone_data
    rw [hup]
    exact sortedDistinct_sortedLT _
  · have hN2 : ¬N < 2 := by omega
    have hp2 : ¬(analyze_sample_map zone_data).unique_pitches.length < 2 :=
      not_lt.mpr hp
    simp only [apply_thinning, if_neg hN2, if_neg hp2]
    rfl
  · decide


/-- Witness for C6 at a concrete input. -/
theorem apply_thinning_selects_every_nth_witness :
    (2 : ℤ) ≤ 2
    ∧ 2 ≤ (analyzedPitches
        [⟨60, 0, -1, false, 0, 0⟩, ⟨61, 0, -1, false, 0, 0⟩,
      ⟨61, 64, -1, false, 0, 0⟩, ⟨62, 0, -1, false, 0, 0⟩]).length
    ∧ (    thinningStart [⟨60, 0, -1, false, 0, 0⟩, ⟨61, 0, -1, false, 0, 0⟩,
      ⟨61, 64, -1, false, 0, 0⟩, ⟨62, 0, -1, false, 0, 0⟩] (0 : ℤ) < (analyzedPitches [⟨60, 0, -1, false, 0, 0⟩, ⟨61, 0, -1, false, 0, 0⟩,
      ⟨61, 64, -1, false, 0, 0⟩, ⟨62, 0, -1, false, 0, 0⟩]).length
    ∧ ((analyzedPitches [⟨60, 0, -1, false, 0, 0⟩, ⟨61, 0, -1, false, 0, 0⟩,
      ⟨61, 64, -1, false, 0, 0⟩, ⟨62, 0, -1, false, 0, 0⟩]).any (fun p => p % 12 == (0 : ℤ)) = true →
        (analyzedPitches [⟨60, 0, -1, false, 0, 0⟩, ⟨61, 0, -1, false, 0, 0⟩,
      ⟨61, 64, -1, false, 0, 0⟩, ⟨62, 0, -1, false, 0, 0⟩]).find? (fun p => p % 12 == (0 : ℤ))
          = some ((analyzedPitches [⟨60, 0, -1, false, 0, 0⟩, ⟨61, 0, -1, false, 0, 0⟩,
      ⟨61, 64, -1, false, 0, 0⟩, ⟨62, 0, -1, false, 0, 0⟩]).getD (thinningStart [⟨60, 0, -1, false, 0, 0⟩, ⟨61, 0, -1, false, 0, 0⟩,
      ⟨61, 64, -1, false, 0, 0⟩, ⟨62, 0, -1, false, 0, 0⟩] (0 : ℤ)) 0))
    ∧ ((analyzedPitches [⟨60, 0, -1, false, 0, 0⟩, ⟨61, 0, -1, false, 0, 0⟩,
      ⟨61, 64, -1, false, 0, 0⟩, ⟨62, 0, -1, false, 0, 0⟩]).all (fun p => !(p % 12 == (0 : ℤ))) = true →
        ((analyzedPitches [⟨60, 0, -1, false, 0, 0⟩, ⟨61, 0, -1, false, 0, 0⟩,
      ⟨61, 64, -1, false, 0, 0⟩, ⟨62, 0, -1, false, 0, 0⟩]).all (fun p =>
            decide (circularPitchClassDist
                ((analyzedPitches [⟨60, 0, -1, false, 0, 0⟩, ⟨61, 0, -1, false, 0, 0⟩,
      ⟨61, 64, -1, false, 0, 0⟩, ⟨62, 0, -1, false, 0, 0⟩]).getD (thinningStart [⟨60, 0, -1, false, 0, 0⟩, ⟨61, 0, -1, false, 0, 0⟩,
      ⟨61, 64, -1, false, 0, 0⟩, ⟨62, 0, -1, false, 0, 0⟩] (0 : ℤ)) 0)
                (0 : ℤ)
              ≤ circularPitchClassDist p (0 : ℤ))) = true
         ∧ (analyzedPitches [⟨60, 0, -1, false, 0, 0⟩, ⟨61, 0, -1, false, 0, 0⟩,
      ⟨61, 64, -1, false, 0, 0⟩, ⟨62, 0, -1, false, 0, 0⟩]).find? (fun p =>
              circularPitchClassDist p (0 : ℤ)
                == circularPitchClassDist
                    ((analyzedPitches [⟨60, 0, -1, false, 0, 0⟩, ⟨61, 0, -1, false, 0, 0⟩,
      ⟨61, 64, -1, false, 0, 0⟩, ⟨62, 0, -1, false, 0, 0⟩]).getD
                      (thinningStart [⟨60, 0, -1, false, 0, 0⟩, ⟨61, 0, -1, false, 0, 0⟩,
      ⟨61, 64, -1, false, 0, 0⟩, ⟨62, 0, -1, false, 0, 0⟩] (0 : ℤ)) 0) (0 : ℤ))
            = some ((analyzedPitches [⟨60, 0, -1, false, 0, 0⟩, ⟨61, 0, -1, false, 0, 0⟩,
      ⟨61, 64, -1, false, 0, 0⟩, ⟨62, 0, -1, false, 0, 0⟩]).getD
                (thinningStart [⟨60, 0, -1, false, 0, 0⟩, ⟨61, 0, -1, false, 0, 0⟩,
      ⟨61, 64, -1, false, 0, 0⟩, ⟨62, 0, -1, false, 0, 0⟩] (0 : ℤ)) 0)))
    ∧ List.insertionSort (· ≤ ·)
        (thinSelectedPitches (analyzedPitches [⟨60, 0, -1, false, 0, 0⟩, ⟨61, 0, -1, false, 0, 0⟩,
      ⟨61, 64, -1, false, 0, 0⟩, ⟨62, 0, -1, false, 0, 0⟩])
          (thinningStart [⟨60, 0, -1, false, 0, 0⟩, ⟨61, 0, -1, false, 0, 0⟩,
      ⟨61, 64, -1, false, 0, 0⟩, ⟨62, 0, -1, false, 0, 0⟩] (0 : ℤ)) (2 : ℤ).toNat).dedup
        = ((List.range (analyzedPitches [⟨60, 0, -1, false, 0, 0⟩, ⟨61, 0, -1, false, 0, 0⟩,
      ⟨61, 64, -1, false, 0, 0⟩, ⟨62, 0, -1, false, 0, 0⟩]).length).filter
            (fun i => i % (2 : ℤ).toNat == thinningStart [⟨60, 0, -1, false, 0, 0⟩, ⟨61, 0, -1, false, 0, 0⟩,
      ⟨61, 64, -1, false, 0, 0⟩, ⟨62, 0, -1, false, 0, 0⟩] (0 : ℤ) % (2 : ℤ).toNat)).map
            (fun i => (analyzedPitches [⟨60, 0, -1, false, 0, 0⟩, ⟨61, 0, -1, false, 0, 0⟩,
      ⟨61, 64, -1, false, 0, 0⟩, ⟨62, 0, -1, false, 0, 0⟩]).getD i 0)
    ∧ (apply_thinning [⟨60, 0, -1, false, 0, 0⟩, ⟨61, 0, -1, false, 0, 0⟩,
      ⟨61, 64, -1, false, 0, 0⟩, ⟨62, 0, -1, false, 0, 0⟩] (2 : ℤ) (0 : ℤ) none).toOption.map Prod.fst
        = some ([⟨60, 0, -1, false, 0, 0⟩, ⟨61, 0, -1, false, 0, 0⟩,
      ⟨61, 64, -1, false, 0, 0⟩, ⟨62, 0, -1, false, 0, 0⟩].filter (fun zd =>
            (thinSelectedPitches (analyzedPitches [⟨60, 0, -1, false, 0, 0⟩, ⟨61, 0, -1, false, 0, 0⟩,
      ⟨61, 64, -1, false, 0, 0⟩, ⟨62, 0, -1, false, 0, 0⟩])
              (thinningStart [⟨60, 0, -1, false, 0, 0⟩, ⟨61, 0, -1, false, 0, 0⟩,
      ⟨61, 64, -1, false, 0, 0⟩, ⟨62, 0, -1, false, 0, 0⟩] (0 : ℤ)) (2 : ℤ).toNat).contains zd.pitch))
    ∧ (apply_thinning
        [⟨60, 0, -1, false, 0, 0⟩, ⟨61, 0, -1, false, 0, 0⟩,
         ⟨62, 0, -1, false, 0, 0⟩, ⟨63, 0, -1, false, 0, 0⟩,
         ⟨64, 0, -1, false, 0, 0⟩, ⟨65, 0, -1, false, 0, 0⟩,
         ⟨66, 0, -1, false, 0, 0⟩, ⟨67, 0, -1, false, 0, 0⟩,
         ⟨68, 0, -1, false, 0, 0⟩, ⟨69, 0, -1, false, 0, 0⟩,
         ⟨70, 0, -1, false, 0, 0⟩, ⟨71, 0, -1, false, 0, 0⟩,
         ⟨72, 0, -1, false, 0, 0⟩] 2 0 none).toOption.map
          (fun r => r.2.selected_pitches)
        = some [60, 62, 64, 66, 68, 70, 72])
  :=
  ⟨by norm_num, by decide,
    apply_thinning_selects_every_nth
      [⟨60, 0, -1, false, 0, 0⟩, ⟨61, 0, -1, false, 0, 0⟩,
      ⟨61, 64, -1, false, 0, 0⟩, ⟨62, 0, -1, false, 0, 0⟩] 2 0 (by norm_num) (by decide)⟩

/-- Candidate loop pairs visited by the nested offset loops of
`optimize_loop_points` (`elmconv.py` lines 807-829), in scan order
(`s_offset` outer, `e_offset` inner, each running from `-search_range` to
`search_range`), keeping only pairs that pass the bounds and ordering
guards (the source's `continue` branches). -/
def loopCandidates (samples : List ℤ) (approx_start approx_end : ℤ)
    (search_range : ℕ) : List (ℤ × ℤ) :=
  ((List.range (2 * search_range + 1)).map
      (fun k : ℕ => (k : ℤ) - search_range)).flatMap fun s_offset =>
    ((List.range (2 * search_range + 1)).map
        (fun k : ℕ => (k : ℤ) - search_range)).filterMap fun e_offset =>
      let test_start := approx_start + s_offset
      let test_end := approx_end + e_offset
      if test_start < 0 ∨ (samples.length : ℤ) ≤ test_start then none
      else if test_end < 0 ∨ (samples.length : ℤ) ≤ test_end then none
      else if test_end ≤ test_start then none
      else some (test_start, test_end)

/-- Amplitude-discontinuity score `abs(samples[test_end] - samples[test_start])`
of a candidate pair. -/
def loopDiff (samples : List ℤ) (c : ℤ × ℤ) : ℤ :=
  |sampleAt samples c.2 - sampleAt samples c.1|

/-- One iteration of the best-candidate update of `optimize_loop_points`:
`none` models the initial `best_diff = float("inf")`, and a candidate
replaces the best only on a strictly smaller score. -/
def optStep (samples : List ℤ) (acc : (ℤ × ℤ) × Option ℤ) (c : ℤ × ℤ) :
    (ℤ × ℤ) × Option ℤ :=
  match acc.2 with
  | none => (c, some (loopDiff samples c))
  | some best_diff =>
    if loopDiff samples c < best_diff then (c, some (loopDiff samples c)) else acc

/-- Embedding of `optimize_loop_points(samples, approx_start, approx_end,
search_range)` (`elmconv.py` lines 787-834): fold the strict-improvement
update over the candidates in scan order, starting from the approximate pair
with infinite score; returns `((best_start, best_end), best_diff)`. -/
def optimize_loop_points (samples : List ℤ) (approx_start approx_end : ℤ)
    (search_range : ℕ) : (ℤ × ℤ) × Option ℤ :=
  (loopCandidates samples approx_start approx_end search_range).foldl
    (optStep samples) ((approx_start, approx_end), none)

/-- Embedding of the adoption step of `write_elmulti` (`elmconv.py` lines
2359-2377): compute the unoptimized score, run the search, and adopt the
optimized pair only if its score strictly improves. -/
def adopt_optimized_loop (samples : List ℤ) (loop_start loop_end : ℤ)
    (search_range : ℕ) : ℤ × ℤ :=
  let orig_diff := loopDiff samples (loop_start, loop_end)
  let r := optimize_loop_points samples loop_start loop_end search_range
  match r.2 with
  | some opt_diff => if opt_diff < orig_diff then r.1 else (loop_start, loop_end)
  | none => (loop_start, loop_end)

lemma optFold_some (samples : List ℤ) :
    ∀ (cs : List (ℤ × ℤ)) (b : ℤ × ℤ),
      cs.foldl (optStep samples) (b, some (loopDiff samples b))
        = (keepFirstMin (loopDiff samples) cs b,
           some (loopDiff samples (keepFirstMin (loopDiff samples) cs b)))
  | [], _ => rfl
  | c :: cs, b => by
    simp only [List.foldl_cons, optStep, keepFirstMin]
    by_cases h : loopDiff samples c < loopDiff samples b
    · rw [if_pos h, if_pos h]
      exact optFold_some samples cs c
    · rw [if_neg h, if_neg h]
      exact optFold_some samples cs b

lemma optimize_loop_points_eq (samples : List ℤ) (a b : ℤ) (K : ℕ)
    (c : ℤ × ℤ) (cs : List (ℤ × ℤ))
    (hc : loopCandidates samples a b K = c :: cs) :
    optimize_loop_points samples a b K
      = (keepFirstMin (loopDiff samples) cs c,
         some (loopDiff samples (keepFirstMin (loopDiff samples) cs c))) := by
  unfold optimize_loop_points
  rw [hc]
  rw [List.foldl_cons]
  have hstep : optStep samples ((a, b), none) c = (c, some (loopDiff samples c)) := rfl
  rw [hstep]
  exact optFold_some samples cs c

lemma self_mem_loopCandidates (samples : List ℤ) (ls le : ℤ) (K : ℕ)
    (h0 : 0 ≤ ls) (hlt : ls < le) (hle : le < (samples.length : ℤ)) :
    (ls, le) ∈ loopCandidates samples ls le K := by
  unfold loopCandidates
  rw [List.mem_flatMap]
  have h1 : K ∈ List.range (2 * K + 1) := List.mem_range.mpr (by omega)
  have h2 := List.mem_map_of_mem (fun k : ℕ => (k : ℤ) - K) h1
  simp only [sub_self] at h2
  refine ⟨0, h2, ?_⟩
  · rw [List.mem_filterMap]
    refine ⟨0, h2, ?_⟩
    · have c1 : ¬(ls < 0 ∨ (samples.length : ℤ) ≤ ls) := by omega
      have c2 : ¬(le < 0 ∨ (samples.length : ℤ) ≤ le) := by omega
      have c3 : ¬(le ≤ ls) := by omega
      simp only [add_zero, if_neg c1, if_neg c2, if_neg c3]

/-- C2: from a starting pair with `0 ≤ loop_start < loop_end < len(samples)`,
the normal-strategy adoption step never ends with a pair whose
amplitude-discontinuity score exceeds the starting pair's, replaces the
starting pair only on strict improvement, and the search itself returns the
first minimal-scoring candidate in scan order (smallest offsets first). -/
theorem normal_loop_optimization_adoption (samples : List ℤ) (ls le : ℤ)
    (K : ℕ) (h0 : 0 ≤ ls) (hlt : ls < le) (hle : le < (samples.length : ℤ)) :
    loopDiff samples (adopt_optimized_loop samples ls le K)
        ≤ loopDiff samples (ls, le)
    ∧ (adopt_optimized_loop samples ls le K ≠ (ls, le) →
        loopDiff samples (adopt_optimized_loop samples ls le K)
          < loopDiff samples (ls, le))
    ∧ (loopCandidates samples ls le K).find?
        (fun c => loopDiff samples c
            == loopDiff samples (optimize_loop_points samples ls le K).1)
        = some (optimize_loop_points samples ls le K).1 := by
  have hmem := self_mem_loopCandidates samples ls le K h0 hlt hle
  obtain ⟨c, cs, hcc⟩ : ∃ c cs, loopCandidates samples ls le K = c :: cs := by
    cases hc : loopCandidates samples ls le K with
    | nil =>
      rw [hc] at hmem
      exact absurd hmem (List.not_mem_nil _)
    | cons c cs => exact ⟨c, cs, rfl⟩
  have hopt := optimize_loop_points_eq samples ls le K c cs hcc
  refine ⟨?_, ?_, ?_⟩
  · simp only [adopt_optimized_loop, hopt]
    by_cases hb : loopDiff samples (keepFirstMin (loopDiff samples) cs c)
        < loopDiff samples (ls, le)
    · rw [if_pos hb]
      exact le_of_lt hb
    · rw [if_neg hb]
  · intro hne
    simp only [adopt_optimized_loop, hopt] at hne ⊢
    by_cases hb : loopDiff samples (keepFirstMin (loopDiff samples) cs c)
        < loopDiff samples (ls, le)
    · rw [if_pos hb]
      exact hb
    · rw [if_neg hb] at hne
      exact absurd rfl hne
  · rw [hcc, hopt]
    exact keepFirstMin_find? (loopDiff samples) cs c

/-- Witness for C2 at a concrete input. -/
theorem normal_loop_optimization_adoption_witness :
    (0 : ℤ) ≤ 1 ∧ (1 : ℤ) < 3
    ∧ (3 : ℤ) < (([5, 1, 4, 1, 5] : List ℤ).length : ℤ)
    ∧ (loopDiff [5, 1, 4, 1, 5] (adopt_optimized_loop [5, 1, 4, 1, 5] 1 3 1)
        ≤ loopDiff [5, 1, 4, 1, 5] (1, 3)
      ∧ (adopt_optimized_loop [5, 1, 4, 1, 5] 1 3 1 ≠ (1, 3) →
          loopDiff [5, 1, 4, 1, 5] (adopt_optimized_loop [5, 1, 4, 1, 5] 1 3 1)
            < loopDiff [5, 1, 4, 1, 5] (1, 3))
      ∧ (loopCandidates [5, 1, 4, 1, 5] 1 3 1).find?
          (fun c => loopDiff [5, 1, 4, 1, 5] c
              == loopDiff [5, 1, 4, 1, 5]
                  (optimize_loop_points [5, 1, 4, 1, 5] 1 3 1).1)
          = some (optimize_loop_points [5, 1, 4, 1, 5] 1 3 1).1) :=
  ⟨by norm_num, by norm_num, by norm_num,
    normal_loop_optimization_adoption [5, 1, 4, 1, 5] 1 3 1 (by norm_num)
      (by norm_num) (by norm_num)⟩

/-- Lexicographic order of the Python sort key
`(z["pitch"], z["minvel"], z["rr_position"])`. -/
def zoneLE (a b : Zone) : Prop :=
  a.pitch < b.pitch
  ∨ (a.pitch = b.pitch ∧ (a.minvel < b.minvel
      ∨ (a.minvel = b.minvel ∧ a.rr_position ≤ b.rr_position)))

instance : DecidableRel zoneLE := fun a b =>
  decidable_of_iff
    (a.pitch < b.pitch
      ∨ (a.pitch = b.pitch ∧ (a.minvel < b.minvel
          ∨ (a.minvel = b.minvel ∧ a.rr_position ≤ b.rr_position)))) Iff.rfl

instance : IsTotal Zone zoneLE :=
  ⟨fun a b => by
    unfold zoneLE
    omega⟩

instance : IsTrans Zone zoneLE :=
  ⟨fun a b c hab hbc => by
    unfold zoneLE at hab hbc ⊢
    omega⟩

/-- Embedding of `zone_data.sort(key=lambda z: (z["pitch"], z["minvel"],
z["rr_position"]))` (`elmconv.py` lines 1584-1585 and 1782-1783); Python's
stable sort is modelled by stable insertion sort. -/
def sortZones (zone_data : List Zone) : List Zone :=
  List.insertionSort zoneLE zone_data

/-- Per-pitch sorted distinct velocity list of the velocity-layer assignment
(`elmconv.py` lines 1587-1597, identically 1785-1795): the defaultdict pass
collects each pitch's `minvel` values in traversal order without
duplicates, then each per-pitch list is sorted. -/
def velLayersAtPitch (zone_data : List Zone) (p : ℤ) : List ℤ :=
  List.insertionSort (· ≤ ·)
    ((((sortZones zone_data).filter (fun z => z.pitch == p)).map (·.minvel)).dedup)

/-- Velocity-layer index assignment (`elmconv.py` lines 1598-1601,
identically 1796-1799): each zone of the sorted list is paired with
`vel_layers_by_pitch[zd["pitch"]].index(zd["minvel"])`. -/
def assignVelLayers (zone_data : List Zone) : List (Zone × ℕ) :=
  (sortZones zone_data).map
    (fun z => (z, (velLayersAtPitch zone_data z.pitch).indexOf z.minvel))

lemma velLayersAtPitch_sorted (zd : List Zone) (p : ℤ) :
    (velLayersAtPitch zd p).Sorted (· ≤ ·) :=
  List.sorted_insertionSort _ _

lemma velLayersAtPitch_nodup (zd : List Zone) (p : ℤ) :
    (velLayersAtPitch zd p).Nodup :=
  ((List.perm_insertionSort (· ≤ ·) _).nodup_iff).mpr (List.nodup_dedup _)

lemma velLayersAtPitch_sortedLT (zd : List Zone) (p : ℤ) :
    (velLayersAtPitch zd p).Sorted (· < ·) :=
  List.Sorted.lt_of_le (velLayersAtPitch_sorted zd p) (velLayersAtPitch_nodup zd p)

lemma mem_velLayersAtPitch {zd : List Zone} {p v : ℤ} :
    v ∈ velLayersAtPitch zd p ↔ ∃ z ∈ zd, z.pitch = p ∧ z.minvel = v := by
  unfold velLayersAtPitch
  rw [(List.perm_insertionSort (· ≤ ·) _).mem_iff, List.mem_dedup, List.mem_map]
  constructor
  · rintro ⟨z, hz, rfl⟩
    rw [List.mem_filter] at hz
    refine ⟨z, (List.perm_insertionSort zoneLE zd).mem_iff.mp hz.1, ?_, rfl⟩
    simpa using hz.2
  · rintro ⟨z, hz, hp, rfl⟩
    refine ⟨z, ?_, rfl⟩
    rw [List.mem_filter]
    exact ⟨(List.perm_insertionSort zoneLE zd).mem_iff.mpr hz, by simp [hp]⟩

lemma indexOf_lt_indexOf_iff_of_sortedLT {L : List ℤ} (hs : L.Sorted (· < ·))
    {a b : ℤ} (ha : a ∈ L) (hb : b ∈ L) :
    L.indexOf a < L.indexOf b ↔ a < b := by
  have hla : L.indexOf a < L.length := List.indexOf_lt_length.mpr ha
  have hlb : L.indexOf b < L.length := List.indexOf_lt_length.mpr hb
  have hga : L.get ⟨L.indexOf a, hla⟩ = a := List.indexOf_get hla
  have hgb : L.get ⟨L.indexOf b, hlb⟩ = b := List.indexOf_get hlb
  constructor
  · intro h
    have := hs.rel_get_of_lt
      (show (⟨L.indexOf a, hla⟩ : Fin L.length) < ⟨L.indexOf b, hlb⟩ from h)
    rwa [hga, hgb] at this
  · intro h
    by_contra h'
    push_neg at h'
    rcases lt_or_eq_of_le h' with hlt | heq
    · have := hs.rel_get_of_lt
        (show (⟨L.indexOf b, hlb⟩ : Fin L.length) < ⟨L.indexOf a, hla⟩ from hlt)
      rw [hga, hgb] at this
      omega
    · have : L.get ⟨L.indexOf b, hlb⟩ = L.get ⟨L.indexOf a, hla⟩ := by
        congr 1
        exact Fin.ext heq
      rw [hga, hgb] at this
      omega

lemma nodup_indexOf_get {L : List ℤ} (hnd : L.Nodup) {k : ℕ} (hk : k < L.length) :
    L.indexOf (L.get ⟨k, hk⟩) = k := by
  have hmem : L.get ⟨k, hk⟩ ∈ L := List.get_mem L k hk
  have hlt : L.indexOf (L.get ⟨k, hk⟩) < L.length := List.indexOf_lt_length.mpr hmem
  have hget : L.get ⟨L.indexOf (L.get ⟨k, hk⟩), hlt⟩ = L.get ⟨k, hk⟩ :=
    List.indexOf_get hlt
  have := (List.Nodup.get_inj_iff hnd).mp hget
  exact congrArg Fin.val this

/-- C8: after a reader builds the zone list, the velocity-layer indices
assigned at any pitch are exactly `0..K-1` where `K` is the number of
distinct `min_velocity` values at that pitch, ordered ascending by
`min_velocity`, and the per-pitch layer list (hence every assigned index) is
independent of the input order of zones; a pitch with velocities 0 and 64
gets indices 0 and 1. -/
theorem velocity_layer_indices_dense (zone_data zone_data' : List Zone) (p : ℤ)
    (hperm : zone_data'.Perm zone_data) :
    (((assignVelLayers zone_data).filter (fun zl => zl.1.pitch == p)).map
        Prod.snd).toFinset
      = Finset.range (velLayersAtPitch zone_data p).length
    ∧ (velLayersAtPitch zone_data p).length
        = (((zone_data.filter (fun z => z.pitch == p)).map (·.minvel)).dedup).length
    ∧ ((assignVelLayers zone_data).filter (fun zl => zl.1.pitch == p)).Pairwise
        (fun a b => a.1.minvel ≤ b.1.minvel ∧ a.2 ≤ b.2
          ∧ (a.1.minvel < b.1.minvel ↔ a.2 < b.2))
    ∧ velLayersAtPitch zone_data' p = velLayersAtPitch zone_data p
    ∧ assignVelLayers [⟨60, 64, -1, false, 0, 0⟩, ⟨60, 0, -1, false, 0, 0⟩]
        = [(⟨60, 0, -1, false, 0, 0⟩, 0), (⟨60, 64, -1, false, 0, 0⟩, 1)] := by
  refine ⟨?_, ?_, ?_, ?_, ?_⟩
  · ext k
    simp only [List.mem_toFinset, List.mem_map, List.mem_filter, Finset.mem_range]
    constructor
    · rintro ⟨zl, ⟨hzl, hpz⟩, rfl⟩
      obtain ⟨z, hz, rfl⟩ := List.mem_map.mp hzl
      have hzp : z.pitch = p := by simpa using hpz
      have hv : z.minvel ∈ velLayersAtPitch zone_data p :=
        mem_velLayersAtPitch.mpr
          ⟨z, (List.perm_insertionSort zoneLE zone_data).mem_iff.mp hz, hzp, rfl⟩
      rw [hzp]
      exact List.indexOf_lt_length.mpr hv
    · intro hk
      have hvL : (velLayersAtPitch zone_data p).get ⟨k, hk⟩
          ∈ velLayersAtPitch zone_data p := List.get_mem _ k hk
      obtain ⟨z, hz, hzp, hzv⟩ := mem_velLayersAtPitch.mp hvL
      refine ⟨(z, (velLayersAtPitch zone_data z.pitch).indexOf z.minvel),
        ⟨List.mem_map_of_mem _
          ((List.perm_insertionSort zoneLE zone_data).mem_iff.mpr hz),
         by simp [hzp]⟩, ?_⟩
      rw [hzp, hzv]
      exact nodup_indexOf_get (velLayersAtPitch_nodup zone_data p) hk
  · have hfin : (velLayersAtPitch zone_data p).toFinset
        = ((zone_data.filter (fun z => z.pitch == p)).map (·.minvel)).toFinset := by
      ext v
      simp only [List.mem_toFinset, mem_velLayersAtPitch, List.mem_map,
        List.mem_filter, beq_iff_eq]
      constructor
      · rintro ⟨z, hz, hp2, rfl⟩
        exact ⟨z, ⟨hz, hp2⟩, rfl⟩
      · rintro ⟨z, ⟨hz, hp2⟩, rfl⟩
        exact ⟨z, hz, hp2, rfl⟩
    calc (velLayersAtPitch zone_data p).length
        = (velLayersAtPitch zone_data p).toFinset.card :=
          (List.toFinset_card_of_nodup (velLayersAtPitch_nodup zone_data p)).symm
      _ = ((zone_data.filter (fun z => z.pitch == p)).map (·.minvel)).toFinset.card :=
          by rw [hfin]
      _ = (((zone_data.filter (fun z => z.pitch == p)).map (·.minvel)).dedup).length :=
          List.card_toFinset _
  · have hsorted : (sortZones zone_data).Pairwise zoneLE :=
      List.sorted_insertionSort zoneLE zone_data
    unfold assignVelLayers
    rw [List.filter_map]
    rw [List.pairwise_map]
    refine List.Pairwise.imp_of_mem (fun {a b} ha hb hab => ?_)
      (List.Pairwise.filter _ hsorted)
    have hap : a.pitch = p := by
      have := (List.mem_filter.mp ha).2
      simpa using this
    have hbp : b.pitch = p := by
      have := (List.mem_filter.mp hb).2
      simpa using this
    have hamem : a.minvel ∈ velLayersAtPitch zone_data p :=
      mem_velLayersAtPitch.mpr
        ⟨a, (List.perm_insertionSort zoneLE zone_data).mem_iff.mp
            (List.mem_of_mem_filter ha), hap, rfl⟩
    have hbmem : b.minvel ∈ velLayersAtPitch zone_data p :=
      mem_velLayersAtPitch.mpr
        ⟨b, (List.perm_insertionSort zoneLE zone_data).mem_iff.mp
            (List.mem_of_mem_filter hb), hbp, rfl⟩
    have hvle : a.minvel ≤ b.minvel := by
      unfold zoneLE at hab
      omega
    have hiff : a.minvel < b.minvel ↔
        (velLayersAtPitch zone_data p).indexOf a.minvel
          < (velLayersAtPitch zone_data p).indexOf b.minvel :=
      (indexOf_lt_indexOf_iff_of_sortedLT (velLayersAtPitch_sortedLT zone_data p)
        hamem hbmem).symm
    refine ⟨hvle, ?_, ?_⟩
    · rcases lt_or_eq_of_le hvle with hlt | heqv
      · rw [hap, hbp]
        exact le_of_lt (hiff.mp hlt)
      · rw [hap, hbp, heqv]
    · rw [hap, hbp]
      exact hiff
  · refine List.eq_of_perm_of_sorted ?_ (velLayersAtPitch_sorted zone_data' p)
      (velLayersAtPitch_sorted zone_data p)
    refine (List.perm_ext_iff_of_nodup (velLayersAtPitch_nodup zone_data' p)
      (velLayersAtPitch_nodup zone_data p)).mpr ?_
    intro v
    rw [mem_velLayersAtPitch, mem_velLayersAtPitch]
    constructor
    · rintro ⟨z, hz, h1, h2⟩
      exact ⟨z, hperm.mem_iff.mp hz, h1, h2⟩
    · rintro ⟨z, hz, h1, h2⟩
      exact ⟨z, hperm.mem_iff.mpr hz, h1, h2⟩
  · decide

/-- Witness for C8 at a concrete input. -/
theorem velocity_layer_indices_dense_witness :
    ([⟨60, 0, -1, false, 0, 0⟩, ⟨60, 64, -1, false, 0, 0⟩] : List Zone).Perm
        [⟨60, 64, -1, false, 0, 0⟩, ⟨60, 0, -1, false, 0, 0⟩]
    ∧ ((((assignVelLayers [⟨60, 64, -1, false, 0, 0⟩, ⟨60, 0, -1, false, 0, 0⟩]).filter
          (fun zl => zl.1.pitch == 60)).map Prod.snd).toFinset
        = Finset.range
            (velLayersAtPitch [⟨60, 64, -1, false, 0, 0⟩, ⟨60, 0, -1, false, 0, 0⟩] 60).length
      ∧ (velLayersAtPitch [⟨60, 64, -1, false, 0, 0⟩, ⟨60, 0, -1, false, 0, 0⟩] 60).length
          = ((([⟨60, 64, -1, false, 0, 0⟩, ⟨60, 0, -1, false, 0, 0⟩] : List Zone).filter
              (fun z => z.pitch == 60)).map (·.minvel)).dedup.length
      ∧ ((assignVelLayers [⟨60, 64, -1, false, 0, 0⟩, ⟨60, 0, -1, false, 0, 0⟩]).filter
          (fun zl => zl.1.pitch == 60)).Pairwise
          (fun a b => a.1.minvel ≤ b.1.minvel ∧ a.2 ≤ b.2
            ∧ (a.1.minvel < b.1.minvel ↔ a.2 < b.2))
      ∧ velLayersAtPitch [⟨60, 0, -1, false, 0, 0⟩, ⟨60, 64, -1, false, 0, 0⟩] 60
          = velLayersAtPitch [⟨60, 64, -1, false, 0, 0⟩, ⟨60, 0, -1, false, 0, 0⟩] 60
      ∧ assignVelLayers [⟨60, 64, -1, false, 0, 0⟩, ⟨60, 0, -1, false, 0, 0⟩]
          = [(⟨60, 0, -1, false, 0, 0⟩, 0), (⟨60, 64, -1, false, 0, 0⟩, 1)]) :=
  ⟨by decide,
    velocity_layer_indices_dense
      [⟨60, 64, -1, false, 0, 0⟩, ⟨60, 0, -1, false, 0, 0⟩]
      [⟨60, 0, -1, false, 0, 0⟩, ⟨60, 64, -1, false, 0, 0⟩] 60 (by decide)⟩

end Elmconv
